import Mathlib

/-!
Verification of the chess-variant rules engine in `Chess/ChessEngine.py`.

The engine is embedded shallowly: squares are the two characters of the
source's board strings (`'wP'` becomes `('w','P')`, `'--'` becomes
`('-','-')`), the 8x8 board is a list of rows, and every stateful method of
`GameState` becomes a function that returns the updated state.  Methods that
mutate `self` while computing (pin-list consumption, the temporary king-cache
relocation in `get_king_moves`) are embedded as a pure core function over the
fields the method reads, plus a thin wrapper producing the updated
`GameState`.  All board accesses in the source are guarded by
`0 <= i < len(board)` checks, so the embedding's bounds-guarded accessors
agree with Python indexing on every access the source performs.
-/

namespace ChessVariant

/-- A board square: the two characters of the source's square strings. -/
abbrev Square := Char × Char

/-- The source's `'--'` empty square. -/
def emptySq : Square := ('-', '-')

/-- The board: `8x8 2d list` of squares, row 0 the black back rank. -/
abbrev Board := List (List Square)

/-- A pin or check record `(end_row, end_column, d0, d1)` as built by
`check_for_pins_and_checks`. -/
abbrev Pin := Int × Int × Int × Int

/-- List lookup with an explicit default, mirroring in-range Python indexing. -/
def lGet {α : Type} (d : α) : List α → Nat → α
  | [], _ => d
  | x :: _, 0 => x
  | _ :: l, n + 1 => lGet d l n

/-- List update at an index; out-of-range updates leave the list unchanged. -/
def lSet {α : Type} : List α → Nat → α → List α
  | [], _, _ => []
  | _ :: l, 0, x => x :: l
  | y :: l, n + 1, x => y :: lSet l n x

/-- Read `board[r][c]`.  Every read in the source is bounds-guarded, so
out-of-range coordinates (never exercised) return the empty square. -/
def boardGet (b : Board) (r c : Int) : Square :=
  if 0 ≤ r ∧ r < 8 ∧ 0 ≤ c ∧ c < 8 then lGet emptySq (lGet [] b r.toNat) c.toNat
  else emptySq

/-- Write `board[r][c] = x`; assignments in the source are likewise only made
at in-range coordinates. -/
def boardSet (b : Board) (r c : Int) (x : Square) : Board :=
  if 0 ≤ r ∧ r < 8 ∧ 0 ≤ c ∧ c < 8 then lSet b r.toNat (lSet (lGet [] b r.toNat) c.toNat x)
  else b

/-- `sum(1 for r in board for piece in r if piece == x)`. -/
def countPiece (b : Board) (x : Square) : Nat :=
  (b.map fun r => (r.filter fun p => p = x).length).sum

/-- `CastleRights`: data storage of the four castling-rights flags. -/
structure CastleRights where
  white_king_side : Bool
  black_king_side : Bool
  white_queen_side : Bool
  black_queen_side : Bool
deriving DecidableEq, Repr

/-- `Move`: record of one ply, as stored by `Move.__init__`. -/
structure Move where
  start_row : Int
  start_column : Int
  end_row : Int
  end_column : Int
  piece_moved : Square
  piece_captured : Square
  is_pawn_promotion : Bool
  is_en_passant_move : Bool
  is_castle_move : Bool
deriving DecidableEq, Repr

/-- `Move.__init__`: resolves the moved and captured pieces from the board at
construction time; an en-passant move's captured piece is the opposing pawn. -/
def mkMove (s e : Int × Int) (board : Board)
    (en_passant pawn_promotion castle : Bool) : Move :=
  let piece_moved := boardGet board s.1 s.2
  let captured0 := boardGet board e.1 e.2
  let piece_captured :=
    if en_passant then (if piece_moved = ('b', 'P') then ('w', 'P') else ('b', 'P'))
    else captured0
  ⟨s.1, s.2, e.1, e.2, piece_moved, piece_captured, pawn_promotion, en_passant, castle⟩

/-- `Move.move_id`, the identity key used by `Move.__eq__`. -/
def move_id (m : Move) : Int :=
  m.start_row * 1000 + m.start_column * 100 + m.end_row * 10 + m.end_column

/-- `GameState`: the board plus all bookkeeping owned by the controller. -/
structure GameState where
  board : Board
  white_to_move : Bool
  move_log : List Move
  white_king_location : Int × Int
  black_king_location : Int × Int
  checkmate : Bool
  stalemate : Bool
  in_check : Bool
  pins : List Pin
  checks : List Pin
  en_passant_possible : Option (Int × Int)
  en_passant_possible_log : List (Option (Int × Int))
  white_castle_king_side : Bool
  white_castle_queen_side : Bool
  black_castle_king_side : Bool
  black_castle_queen_side : Bool
  castle_rights_log : List CastleRights
deriving DecidableEq, Repr

/-- `GameState.__init__`: the standard starting position, castling disabled. -/
def initialGameState : GameState where
  board :=
    [[('b','R'), ('b','N'), ('b','B'), ('b','Q'), ('b','K'), ('b','B'), ('b','N'), ('b','R')],
     [('b','P'), ('b','P'), ('b','P'), ('b','P'), ('b','P'), ('b','P'), ('b','P'), ('b','P')],
     [emptySq, emptySq, emptySq, emptySq, emptySq, emptySq, emptySq, emptySq],
     [emptySq, emptySq, emptySq, emptySq, emptySq, emptySq, emptySq, emptySq],
     [emptySq, emptySq, emptySq, emptySq, emptySq, emptySq, emptySq, emptySq],
     [emptySq, emptySq, emptySq, emptySq, emptySq, emptySq, emptySq, emptySq],
     [('w','P'), ('w','P'), ('w','P'), ('w','P'), ('w','P'), ('w','P'), ('w','P'), ('w','P')],
     [('w','R'), ('w','N'), ('w','B'), ('w','Q'), ('w','K'), ('w','B'), ('w','N'), ('w','R')]]
  white_to_move := true
  move_log := []
  white_king_location := (7, 4)
  black_king_location := (0, 4)
  checkmate := false
  stalemate := false
  in_check := false
  pins := []
  checks := []
  en_passant_possible := none
  en_passant_possible_log := [none]
  white_castle_king_side := false
  white_castle_queen_side := false
  black_castle_king_side := false
  black_castle_queen_side := false
  castle_rights_log := [⟨false, false, false, false⟩]

/-- The eight ray directions with their loop index `j`, in source order. -/
def directionsE : List (Nat × (Int × Int)) :=
  [(0, (-1, 0)), (1, (0, -1)), (2, (1, 0)), (3, (0, 1)),
   (4, (-1, -1)), (5, (-1, 1)), (6, (1, -1)), (7, (1, 1))]

/-- The eight knight offsets, in source order. -/
def knightOffsets : List (Int × Int) :=
  [(-2, -1), (-2, 1), (-1, -2), (-1, 2), (1, -2), (1, 2), (2, -1), (2, 1)]

/-- `row_moves` zipped with `column_moves` from `get_king_moves`. -/
def kingOffsets : List (Int × Int) :=
  [(-1, -1), (-1, 0), (-1, 1), (0, -1), (0, 1), (1, -1), (1, 0), (1, 1)]

/-- Rook sliding directions, in source order. -/
def rookDirections : List (Int × Int) := [(-1, 0), (0, -1), (1, 0), (0, 1)]

/-- Bishop sliding directions, in source order. -/
def bishopDirections : List (Int × Int) := [(-1, -1), (-1, 1), (1, 1), (1, -1)]

/-- Python `range(a, b)` over integers. -/
def rangeAsc (a b : Int) : List Int := (List.range (b - a).toNat).map fun i => a + i

/-- Python `range(a, b, -1)` over integers. -/
def rangeDesc (a b : Int) : List Int := (List.range (a - b).toNat).map fun i => a - i

/-- The source's pin lookup: iterate the pin list from its end and take the
first entry for `(row, column)`, i.e. the last matching entry. -/
def findPin : List Pin → Int → Int → Option Pin
  | [], _, _ => none
  | p :: ps, r, c =>
    match findPin ps r c with
    | some q => some q
    | none => if p.1 = r ∧ p.2.1 = c then some p else none

/-- `list.remove(x)`: drop the first element equal to `x`. -/
def removeFirstVal : List Pin → Pin → List Pin
  | [], _ => []
  | p :: ps, q => if p = q then ps else p :: removeFirstVal ps q

/-- The shared attacker classification of the ray scans in
`square_under_attack` and `check_for_pins_and_checks` (identical in both):
rook on orthogonal rays, bishop on diagonal rays, pawn at distance 1 with the
matching diagonal, queen on any ray, king at distance 1. -/
def attackCond (opponent : Char) (j : Nat) (piece_type : Char) (i : Int) : Prop :=
  (j ≤ 3 ∧ piece_type = 'R') ∨
  (4 ≤ j ∧ j ≤ 7 ∧ piece_type = 'B') ∨
  (i = 1 ∧ piece_type = 'P' ∧
    ((opponent = 'w' ∧ 6 ≤ j ∧ j ≤ 7) ∨ (opponent = 'b' ∧ 4 ≤ j ∧ j ≤ 5))) ∨
  piece_type = 'Q' ∨
  (i = 1 ∧ piece_type = 'K')

instance (opponent : Char) (j : Nat) (piece_type : Char) (i : Int) :
    Decidable (attackCond opponent j piece_type i) := by
  unfold attackCond; infer_instance

/-- Outcome of one ray of `check_for_pins_and_checks`: nothing, one pin, or
one check. -/
inductive RayResult where
  | nores : RayResult
  | pin : Pin → RayResult
  | chk : Pin → RayResult
deriving DecidableEq, Repr

/-- One ray of `check_for_pins_and_checks`: walk outward from the king,
remembering the first friendly non-king piece as a possible pin; a matching
enemy attacker behind it yields a pin, with no interposed friend a check.
The fuel counts the remaining iterations of `range(1, 8)`. -/
def cfpRayAux (b : Board) (ally opponent : Char) (sr sc dr dc : Int) (j : Nat) :
    Nat → Int → Option Pin → RayResult
  | 0, _, _ => RayResult.nores
  | fuel + 1, i, possible_pin =>
    let er := sr + dr * i
    let ec := sc + dc * i
    if 0 ≤ er ∧ er < 8 ∧ 0 ≤ ec ∧ ec < 8 then
      let end_piece := boardGet b er ec
      if end_piece.1 = ally ∧ end_piece.2 ≠ 'K' then
        match possible_pin with
        | none => cfpRayAux b ally opponent sr sc dr dc j fuel (i + 1) (some (er, ec, dr, dc))
        | some _ => RayResult.nores
      else if end_piece.1 = opponent then
        if attackCond opponent j end_piece.2 i then
          match possible_pin with
          | none => RayResult.chk (er, ec, dr, dc)
          | some p => RayResult.pin p
        else RayResult.nores
      else cfpRayAux b ally opponent sr sc dr dc j fuel (i + 1) possible_pin
    else RayResult.nores

/-- Whether a ray produced a check. -/
def isChk : RayResult → Bool
  | RayResult.chk _ => true
  | _ => false

/-- Accumulation of one ray's result in `check_for_pins_and_checks`. -/
def cfpRayStep (b : Board) (ally opponent : Char) (sr sc : Int)
    (acc : Bool × List Pin × List Pin) (jd : Nat × (Int × Int)) :
    Bool × List Pin × List Pin :=
  match cfpRayAux b ally opponent sr sc jd.2.1 jd.2.2 jd.1 7 1 none with
  | RayResult.nores => acc
  | RayResult.pin p => (acc.1, acc.2.1 ++ [p], acc.2.2)
  | RayResult.chk c => (true, acc.2.1, acc.2.2 ++ [c])

/-- Accumulation of one knight probe in `check_for_pins_and_checks`. -/
def cfpKnightStep (b : Board) (opponent : Char) (sr sc : Int)
    (acc : Bool × List Pin) (m : Int × Int) : Bool × List Pin :=
  let er := sr + m.1
  let ec := sc + m.2
  if 0 ≤ er ∧ er < 8 ∧ 0 ≤ ec ∧ ec < 8 then
    let end_piece := boardGet b er ec
    if end_piece.1 = opponent ∧ end_piece.2 = 'N' then
      (true, acc.2 ++ [(er, ec, m.1, m.2)])
    else acc
  else acc

/-- `check_for_pins_and_checks` over the fields it reads: eight ray scans from
the side-to-move's king, then the eight knight probes. -/
def cfpFields (b : Board) (wtm : Bool) (wkl bkl : Int × Int) :
    Bool × List Pin × List Pin :=
  let opponent := if wtm then 'b' else 'w'
  let ally := if wtm then 'w' else 'b'
  let start := if wtm then wkl else bkl
  let rayAcc :=
    directionsE.foldl (cfpRayStep b ally opponent start.1 start.2) (false, [], [])
  let knightAcc :=
    knightOffsets.foldl (cfpKnightStep b opponent start.1 start.2)
      (rayAcc.1, rayAcc.2.2)
  (knightAcc.1, rayAcc.2.1, knightAcc.2)

/-- `GameState.check_for_pins_and_checks`. -/
def check_for_pins_and_checks (g : GameState) : Bool × List Pin × List Pin :=
  cfpFields g.board g.white_to_move g.white_king_location g.black_king_location

/-- One ray of `square_under_attack`: any friendly piece blocks; the first
enemy piece attacks or blocks according to `attackCond`. -/
def suaRayAux (b : Board) (ally opponent : Char) (sr sc dr dc : Int) (j : Nat) :
    Nat → Int → Bool
  | 0, _ => false
  | fuel + 1, i =>
    let er := sr + dr * i
    let ec := sc + dc * i
    if 0 ≤ er ∧ er < 8 ∧ 0 ≤ ec ∧ ec < 8 then
      let end_piece := boardGet b er ec
      if end_piece.1 = ally then false
      else if end_piece.1 = opponent then
        if attackCond opponent j end_piece.2 i then true else false
      else suaRayAux b ally opponent sr sc dr dc j fuel (i + 1)
    else false

/-- `square_under_attack` over the fields it reads. -/
def suaFields (b : Board) (wtm : Bool) (row column : Int) (ally : Char) : Bool :=
  let opponent := if wtm then 'b' else 'w'
  (directionsE.any fun jd =>
    suaRayAux b ally opponent row column jd.2.1 jd.2.2 jd.1 7 1) ||
  (knightOffsets.any fun m =>
    let er := row + m.1
    let ec := column + m.2
    if 0 ≤ er ∧ er < 8 ∧ 0 ≤ ec ∧ ec < 8 then
      let end_piece := boardGet b er ec
      decide (end_piece.1 = opponent ∧ end_piece.2 = 'N')
    else false)

/-- `GameState.square_under_attack`. -/
def square_under_attack (g : GameState) (row column : Int) (ally : Char) : Bool :=
  suaFields g.board g.white_to_move row column ally

/-- One sliding ray of `get_rook_moves` / `get_bishop_moves`: empty squares
continue the slide, an enemy piece is captured and stops it, a friendly piece
stops it.  The per-square pin test of the source is a per-direction constant
and is hoisted to the caller.  The fuel counts the remaining iterations of
`range(1, 8)`. -/
def slideRayAux (b : Board) (opponent : Char) (row column dr dc : Int) :
    Nat → Int → List Move
  | 0, _ => []
  | fuel + 1, i =>
    let end_row := row + dr * i
    let end_column := column + dc * i
    if 0 ≤ end_row ∧ end_row < 8 ∧ 0 ≤ end_column ∧ end_column < 8 then
      let end_piece := boardGet b end_row end_column
      if end_piece = emptySq then
        mkMove (row, column) (end_row, end_column) b false false false ::
          slideRayAux b opponent row column dr dc fuel (i + 1)
      else if end_piece.1 = opponent then
        [mkMove (row, column) (end_row, end_column) b false false false]
      else []
    else []

/-- The moves of a slider at `(row, column)` along `dirs`, with the source's
pin restriction (`not piece_pinned or pin_direction == d or == -d`). -/
def slideDirs (b : Board) (opponent : Char) (piece_pinned : Bool)
    (pin_direction : Option (Int × Int)) (row column : Int)
    (dirs : List (Int × Int)) (moves : List Move) : List Move :=
  dirs.foldl (fun acc d =>
    acc ++
      (if ¬ piece_pinned ∨ pin_direction = some d ∨ pin_direction = some (-d.1, -d.2) then
        slideRayAux b opponent row column d.1 d.2 7 1
      else []))
    moves

/-- `get_rook_moves` over the fields it reads; returns the moves and the
updated pin list (the pin entry is consumed unless the piece is a queen). -/
def rookFields (b : Board) (wtm : Bool) (pins : List Pin) (row column : Int)
    (moves : List Move) : List Move × List Pin :=
  let opponent := if wtm then 'b' else 'w'
  let pinres := findPin pins row column
  let piece_pinned := pinres.isSome
  let pin_direction : Option (Int × Int) := pinres.map fun p => (p.2.2.1, p.2.2.2)
  let pins' :=
    match pinres with
    | some p => if (boardGet b row column).2 ≠ 'Q' then removeFirstVal pins p else pins
    | none => pins
  (slideDirs b opponent piece_pinned pin_direction row column rookDirections moves, pins')

/-- `get_bishop_moves` over the fields it reads; the pin entry is consumed
unconditionally. -/
def bishopFields (b : Board) (wtm : Bool) (pins : List Pin) (row column : Int)
    (moves : List Move) : List Move × List Pin :=
  let opponent := if wtm then 'b' else 'w'
  let pinres := findPin pins row column
  let piece_pinned := pinres.isSome
  let pin_direction : Option (Int × Int) := pinres.map fun p => (p.2.2.1, p.2.2.2)
  let pins' :=
    match pinres with
    | some p => removeFirstVal pins p
    | none => pins
  (slideDirs b opponent piece_pinned pin_direction row column bishopDirections moves, pins')

/-- `get_queen_moves`: bishop generation first, then rook generation, exactly
as the source calls them. -/
def queenFields (b : Board) (wtm : Bool) (pins : List Pin) (row column : Int)
    (moves : List Move) : List Move × List Pin :=
  let r1 := bishopFields b wtm pins row column moves
  rookFields b wtm r1.2 row column r1.1

/-- `get_knight_moves` over the fields it reads: the eight offsets, onto an
enemy or empty square; a pinned knight generates nothing. -/
def knightFields (b : Board) (wtm : Bool) (pins : List Pin) (row column : Int)
    (moves : List Move) : List Move × List Pin :=
  let opponent := if wtm then 'b' else 'w'
  let pinres := findPin pins row column
  let piece_pinned := pinres.isSome
  let pins' :=
    match pinres with
    | some p => removeFirstVal pins p
    | none => pins
  let out :=
    moves ++
      knightOffsets.filterMap (fun d =>
        let end_row := row + d.1
        let end_column := column + d.2
        if 0 ≤ end_row ∧ end_row < 8 ∧ 0 ≤ end_column ∧ end_column < 8 then
          if ¬ piece_pinned then
            let end_piece := boardGet b end_row end_column
            if end_piece.1 = opponent ∨ end_piece = emptySq then
              some (mkMove (row, column) (end_row, end_column) b false false false)
            else none
          else none
        else none)
  (out, pins')

/-- The forward-advance block of `get_pawn_moves`: the pin-guarded one-step
advance (with the promotion gate) followed by the source's unguarded
two-step advance. -/
def pawnForwardMoves (b : Board) (move_amount start_row back_row : Int)
    (piece_pinned : Bool) (pin_direction : Option (Int × Int))
    (promotion_allowed : Bool) (row column : Int) : List Move :=
  if 0 ≤ row + move_amount ∧ row + move_amount < 8 then
    if boardGet b (row + move_amount) column = emptySq then
      (if ¬ piece_pinned ∨ pin_direction = some (move_amount, 0) then
        (if row + move_amount = back_row ∧ promotion_allowed then
          [mkMove (row, column) (row + move_amount, column) b false true false]
        else if row + move_amount ≠ back_row then
          [mkMove (row, column) (row + move_amount, column) b false false false]
        else [])
      else []) ++
      (if row = start_row ∧ boardGet b (row + 2 * move_amount) column = emptySq then
        [mkMove (row, column) (row + 2 * move_amount, column) b false false false]
      else [])
    else []
  else []

/-- The same-rank discovered-check scan guarding an en-passant capture: fold
the inside range for blockers, then the outside range for attackers and
blockers, exactly as the source's two loops do.  Returns
`(attacking_piece, blocking_piece)`. -/
def epRankScan (b : Board) (opponent : Char) (row : Int)
    (inside outside : List Int) : Bool × Bool :=
  let blocking0 :=
    inside.foldl (fun bl i => if boardGet b row i ≠ emptySq then true else bl) false
  outside.foldl (fun (ab : Bool × Bool) i =>
    let square := boardGet b row i
    if square.1 = opponent ∧ (square.2 = 'R' ∨ square.2 = 'Q') then (true, ab.2)
    else if square ≠ emptySq then (ab.1, true)
    else ab) (false, blocking0)

/-- The rank scan for an en-passant capture to the left: only performed when
the king shares the capturer's rank; the inside range runs from the king to
the pawn pair, the outside range beyond it. -/
def epScanLeft (b : Board) (opponent : Char) (king_row king_column row column : Int) :
    Bool × Bool :=
  if king_row = row then
    if king_column < column then
      epRankScan b opponent row (rangeAsc (king_column + 1) (column - 1))
        (rangeAsc (column + 1) 8)
    else
      epRankScan b opponent row (rangeDesc (king_column - 1) column)
        (rangeDesc (column - 2) (-1))
  else (false, false)

/-- The rank scan for an en-passant capture to the right. -/
def epScanRight (b : Board) (opponent : Char) (king_row king_column row column : Int) :
    Bool × Bool :=
  if king_row = row then
    if king_column < column then
      epRankScan b opponent row (rangeAsc (king_column + 1) column)
        (rangeAsc (column + 2) 8)
    else
      epRankScan b opponent row (rangeDesc (king_column - 1) (column + 1))
        (rangeDesc (column - 1) (-1))
  else (false, false)

/-- The capture-to-the-left block of `get_pawn_moves`: the pin-guarded
diagonal capture (with the promotion gate) and the en-passant capture with
its rank scan. -/
def pawnCaptureLeft (b : Board) (move_amount back_row : Int) (opponent : Char)
    (ep : Option (Int × Int)) (piece_pinned : Bool)
    (pin_direction : Option (Int × Int)) (promotion_allowed : Bool)
    (king_row king_column row column : Int) : List Move :=
  if column - 1 ≥ 0 ∧ 0 ≤ row + move_amount ∧ row + move_amount < 8 then
    if ¬ piece_pinned ∨ pin_direction = some (move_amount, -1) then
      (if (boardGet b (row + move_amount) (column - 1)).1 = opponent then
        (if row + move_amount = back_row ∧ promotion_allowed then
          [mkMove (row, column) (row + move_amount, column - 1) b false true false]
        else if row + move_amount ≠ back_row then
          [mkMove (row, column) (row + move_amount, column - 1) b false false false]
        else [])
      else []) ++
      (if ep = some (row + move_amount, column - 1) then
        (if (epScanLeft b opponent king_row king_column row column).1 = false ∨
            (epScanLeft b opponent king_row king_column row column).2 = true then
          [mkMove (row, column) (row + move_amount, column - 1) b true false false]
        else [])
      else [])
    else []
  else []

/-- The capture-to-the-right block of `get_pawn_moves`. -/
def pawnCaptureRight (b : Board) (move_amount back_row : Int) (opponent : Char)
    (ep : Option (Int × Int)) (piece_pinned : Bool)
    (pin_direction : Option (Int × Int)) (promotion_allowed : Bool)
    (king_row king_column row column : Int) : List Move :=
  if column + 1 < 8 ∧ 0 ≤ row + move_amount ∧ row + move_amount < 8 then
    if ¬ piece_pinned ∨ pin_direction = some (move_amount, 1) then
      (if (boardGet b (row + move_amount) (column + 1)).1 = opponent then
        (if row + move_amount = back_row ∧ promotion_allowed then
          [mkMove (row, column) (row + move_amount, column + 1) b false true false]
        else if row + move_amount ≠ back_row then
          [mkMove (row, column) (row + move_amount, column + 1) b false false false]
        else [])
      else []) ++
      (if ep = some (row + move_amount, column + 1) then
        (if (epScanRight b opponent king_row king_column row column).1 = false ∨
            (epScanRight b opponent king_row king_column row column).2 = true then
          [mkMove (row, column) (row + move_amount, column + 1) b true false false]
        else [])
      else [])
    else []
  else []

/-- `get_pawn_moves` over the fields it reads: the rook count for the
promotion gate, the pin lookup and consumption, then the forward block and
the two capture blocks in source order. -/
def pawnFields (b : Board) (wtm : Bool) (ep : Option (Int × Int)) (pins : List Pin)
    (wkl bkl : Int × Int) (row column : Int) (moves : List Move) :
    List Move × List Pin :=
  let white_rooks_onboard := countPiece b ('w', 'R')
  let black_rooks_onboard := countPiece b ('b', 'R')
  let pinres := findPin pins row column
  let piece_pinned := pinres.isSome
  let pin_direction : Option (Int × Int) := pinres.map fun p => (p.2.2.1, p.2.2.2)
  let pins' :=
    match pinres with
    | some p => removeFirstVal pins p
    | none => pins
  let move_amount : Int := if wtm then -1 else 1
  let start_row : Int := if wtm then 6 else 1
  let back_row : Int := if wtm then 0 else 7
  let opponent : Char := if wtm then 'b' else 'w'
  let kingloc := if wtm then wkl else bkl
  let rooks_alive := if wtm then white_rooks_onboard else black_rooks_onboard
  let promotion_allowed := rooks_alive < 2
  (moves ++
    pawnForwardMoves b move_amount start_row back_row piece_pinned pin_direction
      promotion_allowed row column ++
    pawnCaptureLeft b move_amount back_row opponent ep piece_pinned pin_direction
      promotion_allowed kingloc.1 kingloc.2 row column ++
    pawnCaptureRight b move_amount back_row opponent ep piece_pinned pin_direction
      promotion_allowed kingloc.1 kingloc.2 row column,
   pins')

/-- One candidate square of `get_king_moves`: relocate the cache, re-run the
analyzer, keep the move if the side is not left in check, revert the cache to
`(row, column)`. -/
def kingStep (b : Board) (wtm : Bool) (ally : Char) (row column : Int)
    (acc : List Move × (Int × Int) × (Int × Int)) (d : Int × Int) :
    List Move × (Int × Int) × (Int × Int) :=
  let ms := acc.1
  let wk := acc.2.1
  let bk := acc.2.2
  let end_row := row + d.1
  let end_column := column + d.2
  if 0 ≤ end_row ∧ end_row < 8 ∧ 0 ≤ end_column ∧ end_column < 8 then
    let end_piece := boardGet b end_row end_column
    if end_piece.1 ≠ ally then
      let wk1 := if ally = 'w' then (end_row, end_column) else wk
      let bk1 := if ally = 'w' then bk else (end_row, end_column)
      let probe := cfpFields b wtm wk1 bk1
      let ms1 :=
        if probe.1 = false then
          ms ++ [mkMove (row, column) (end_row, end_column) b false false false]
        else ms
      if ally = 'w' then (ms1, (row, column), bk1) else (ms1, wk1, (row, column))
    else acc
  else acc

/-- `get_king_moves` over the fields it reads: probe the eight neighbours in
source order; returns the moves and both cache values. -/
def kingFields (b : Board) (wtm : Bool) (wkl bkl : Int × Int) (row column : Int)
    (moves : List Move) : List Move × (Int × Int) × (Int × Int) :=
  kingOffsets.foldl (kingStep b wtm (if wtm then 'w' else 'b') row column)
    (moves, wkl, bkl)

/-- `GameState.get_pawn_moves`. -/
def get_pawn_moves (g : GameState) (row column : Int) (moves : List Move) :
    List Move × GameState :=
  let r := pawnFields g.board g.white_to_move g.en_passant_possible g.pins
    g.white_king_location g.black_king_location row column moves
  (r.1, {g with pins := r.2})

/-- `GameState.get_rook_moves`. -/
def get_rook_moves (g : GameState) (row column : Int) (moves : List Move) :
    List Move × GameState :=
  let r := rookFields g.board g.white_to_move g.pins row column moves
  (r.1, {g with pins := r.2})

/-- `GameState.get_bishop_moves`. -/
def get_bishop_moves (g : GameState) (row column : Int) (moves : List Move) :
    List Move × GameState :=
  let r := bishopFields g.board g.white_to_move g.pins row column moves
  (r.1, {g with pins := r.2})

/-- `GameState.get_knight_moves`. -/
def get_knight_moves (g : GameState) (row column : Int) (moves : List Move) :
    List Move × GameState :=
  let r := knightFields g.board g.white_to_move g.pins row column moves
  (r.1, {g with pins := r.2})

/-- `GameState.get_queen_moves`. -/
def get_queen_moves (g : GameState) (row column : Int) (moves : List Move) :
    List Move × GameState :=
  let r := queenFields g.board g.white_to_move g.pins row column moves
  (r.1, {g with pins := r.2})

/-- `GameState.get_king_moves`. -/
def get_king_moves (g : GameState) (row column : Int) (moves : List Move) :
    List Move × GameState :=
  let r := kingFields g.board g.white_to_move g.white_king_location
    g.black_king_location row column moves
  (r.1, {g with white_king_location := r.2.1, black_king_location := r.2.2})

/-- One square of `get_all_possible_moves`: dispatch on the piece letter for
the side to move, threading the pin list and the king caches. -/
def apmStep (b : Board) (wtm : Bool) (ep : Option (Int × Int))
    (acc : List Move × List Pin × (Int × Int) × (Int × Int)) (row column : Int) :
    List Move × List Pin × (Int × Int) × (Int × Int) :=
  let ms := acc.1
  let ps := acc.2.1
  let wk := acc.2.2.1
  let bk := acc.2.2.2
  let sq := boardGet b row column
  let turn := sq.1
  if (turn = 'w' ∧ wtm) ∨ (turn = 'b' ∧ ¬ wtm) then
    let piece := sq.2
    if piece = 'P' then
      let r := pawnFields b wtm ep ps wk bk row column ms
      (r.1, r.2, wk, bk)
    else if piece = 'R' then
      let r := rookFields b wtm ps row column ms
      (r.1, r.2, wk, bk)
    else if piece = 'N' then
      let r := knightFields b wtm ps row column ms
      (r.1, r.2, wk, bk)
    else if piece = 'B' then
      let r := bishopFields b wtm ps row column ms
      (r.1, r.2, wk, bk)
    else if piece = 'Q' then
      let r := queenFields b wtm ps row column ms
      (r.1, r.2, wk, bk)
    else if piece = 'K' then
      let r := kingFields b wtm wk bk row column ms
      (r.1, ps, r.2.1, r.2.2)
    else acc
  else acc

/-- `get_all_possible_moves` over the fields it reads: scan the board in row
then column order. -/
def apmFields (b : Board) (wtm : Bool) (ep : Option (Int × Int)) (pins : List Pin)
    (wkl bkl : Int × Int) : List Move × List Pin × (Int × Int) × (Int × Int) :=
  (List.range 8).foldl (fun acc (row : Nat) =>
    (List.range 8).foldl (fun acc (column : Nat) =>
      apmStep b wtm ep acc (row : Int) (column : Int)) acc)
    ([], pins, wkl, bkl)

/-- `GameState.get_all_possible_moves`. -/
def get_all_possible_moves (g : GameState) : List Move × GameState :=
  let r := apmFields g.board g.white_to_move g.en_passant_possible g.pins
    g.white_king_location g.black_king_location
  (r.1, {g with pins := r.2.1, white_king_location := r.2.2.1,
                black_king_location := r.2.2.2})

/-- `list.remove(m)` under `Move.__eq__`: drop the first move whose
`move_id` equals that of `m`. -/
def removeFirstEq : List Move → Move → List Move
  | [], _ => []
  | x :: xs, m => if move_id x = move_id m then xs else x :: removeFirstEq xs m

/-- The single-check filtering loop of `get_valid_moves`: walk the indices of
the generated list from the end; a non-king move whose destination is outside
`valid_squares` is removed by value. -/
def checkFilterAux (valid_squares : List (Int × Int)) : List Move → Nat → List Move
  | l, 0 => l
  | l, i + 1 =>
    let l' :=
      match l.get? i with
      | none => l
      | some m =>
        if m.piece_moved.2 ≠ 'K' ∧ ¬ (m.end_row, m.end_column) ∈ valid_squares then
          removeFirstEq l m
        else l
    checkFilterAux valid_squares l' i

/-- Entry point of the filtering loop, starting at index `len - 1`. -/
def checkFilter (l : List Move) (valid_squares : List (Int × Int)) : List Move :=
  checkFilterAux valid_squares l l.length

/-- The block-or-capture square list for a single sliding check: squares from
the king toward the checker, stopping once the checker's square is included.
The fuel counts the remaining iterations of `range(1, 8)`. -/
def validSquaresAux (king_row king_column d2 d3 check_row check_column : Int) :
    Nat → Int → List (Int × Int)
  | 0, _ => []
  | fuel + 1, i =>
    let vs := (king_row + d2 * i, king_column + d3 * i)
    if vs.1 = check_row ∧ vs.2 = check_column then [vs]
    else vs :: validSquaresAux king_row king_column d2 d3 check_row check_column fuel (i + 1)

/-- The outputs of `get_valid_moves`: the legal-move list and every field the
method assigns on `self`. -/
structure GvmRes where
  moves : List Move
  in_check : Bool
  pins : List Pin
  checks : List Pin
  wkl : Int × Int
  bkl : Int × Int
  checkmate : Bool
  stalemate : Bool
deriving Repr

/-- `get_valid_moves` over the fields it reads (`cm`/`sm` are the incoming
checkmate/stalemate flags, one of which survives when the move list is empty):
recompute the analyzer results, then either take all pseudo-legal moves, keep
only blocks/captures/king moves under a single check, or generate king moves
only under a double check; finally derive checkmate/stalemate. -/
def gvmFields (b : Board) (wtm : Bool) (ep : Option (Int × Int))
    (wkl bkl : Int × Int) (cm sm : Bool) : GvmRes :=
  let cfp := cfpFields b wtm wkl bkl
  let in_check := cfp.1
  let pins := cfp.2.1
  let checks := cfp.2.2
  let kingloc := if wtm then wkl else bkl
  let king_row := kingloc.1
  let king_column := kingloc.2
  let gen : List Move × List Pin × (Int × Int) × (Int × Int) :=
    if in_check = true then
      if checks.length = 1 then
        let r := apmFields b wtm ep pins wkl bkl
        let check := checks.headD (0, 0, 0, 0)
        let check_row := check.1
        let check_column := check.2.1
        let piece_checking := boardGet b check_row check_column
        let valid_squares :=
          if piece_checking.2 = 'N' then [(check_row, check_column)]
          else validSquaresAux king_row king_column check.2.2.1 check.2.2.2
            check_row check_column 7 1
        (checkFilter r.1 valid_squares, r.2)
      else
        let r := kingFields b wtm wkl bkl king_row king_column []
        (r.1, pins, r.2)
    else apmFields b wtm ep pins wkl bkl
  let valid_moves := gen.1
  let flags : Bool × Bool :=
    if valid_moves.length = 0 then
      if in_check = true then (true, sm) else (cm, true)
    else (false, false)
  ⟨valid_moves, in_check, gen.2.1, checks, gen.2.2.1, gen.2.2.2, flags.1, flags.2⟩

/-- `GameState.get_valid_moves`: the legal-move list together with the state
as mutated by the call. -/
def get_valid_moves (g : GameState) : List Move × GameState :=
  let r := gvmFields g.board g.white_to_move g.en_passant_possible
    g.white_king_location g.black_king_location g.checkmate g.stalemate
  (r.moves,
   {g with in_check := r.in_check, pins := r.pins, checks := r.checks,
           white_king_location := r.wkl, black_king_location := r.bkl,
           checkmate := r.checkmate, stalemate := r.stalemate})

/-- `GameState.make_move`: clear the origin, write the moved piece (then the
promoted rook if promoting), update a moved king's cache, clear the
passed-over pawn for en passant, push the new en-passant target and a
castle-rights snapshot, log the move, and flip the turn. -/
def make_move (g : GameState) (move : Move) : GameState :=
  let b := boardSet g.board move.start_row move.start_column emptySq
  let b := boardSet b move.end_row move.end_column move.piece_moved
  let move_log := g.move_log ++ [move]
  let wkl :=
    if move.piece_moved = ('w', 'K') then (move.end_row, move.end_column)
    else g.white_king_location
  let bkl :=
    if move.piece_moved = ('b', 'K') then (move.end_row, move.end_column)
    else g.black_king_location
  let b :=
    if move.is_pawn_promotion = true then
      boardSet b move.end_row move.end_column (move.piece_moved.1, 'R')
    else b
  let b :=
    if move.is_en_passant_move = true then
      boardSet b move.start_row move.end_column emptySq
    else b
  let ep : Option (Int × Int) :=
    if move.piece_moved.2 = 'P' ∧ (move.start_row - move.end_row).natAbs = 2 then
      some ((move.start_row + move.end_row) / 2, move.start_column)
    else none
  let ep_log := g.en_passant_possible_log ++ [ep]
  let cr_log := g.castle_rights_log ++
    [⟨g.white_castle_king_side, g.black_castle_king_side,
      g.white_castle_queen_side, g.black_castle_queen_side⟩]
  {g with board := b, move_log := move_log,
          white_king_location := wkl, black_king_location := bkl,
          en_passant_possible := ep, en_passant_possible_log := ep_log,
          castle_rights_log := cr_log,
          white_to_move := ¬ g.white_to_move}

/-- `GameState.undo_move`: a no-op on an empty log; otherwise pop the last
move, restore both squares (with the en-passant fix-up), restore a moved
king's cache, pop both snapshot logs and re-adopt their new last entries,
flip the turn back, and clear the terminal flags. -/
def undo_move (g : GameState) : GameState :=
  match g.move_log.getLast? with
  | none => g
  | some move =>
    let move_log := g.move_log.dropLast
    let b := boardSet g.board move.start_row move.start_column move.piece_moved
    let b := boardSet b move.end_row move.end_column move.piece_captured
    let wkl :=
      if move.piece_moved = ('w', 'K') then (move.start_row, move.start_column)
      else g.white_king_location
    let bkl :=
      if move.piece_moved = ('b', 'K') then (move.start_row, move.start_column)
      else g.black_king_location
    let b :=
      if move.is_en_passant_move = true then
        boardSet (boardSet b move.end_row move.end_column emptySq)
          move.start_row move.end_column move.piece_captured
      else b
    let ep_log := g.en_passant_possible_log.dropLast
    let ep :=
      match ep_log.getLast? with
      | some e => e
      | none => none
    let cr_log := g.castle_rights_log.dropLast
    let cr :=
      match cr_log.getLast? with
      | some c => c
      | none => (⟨false, false, false, false⟩ : CastleRights)
    {g with board := b, move_log := move_log,
            white_to_move := ¬ g.white_to_move,
            white_king_location := wkl, black_king_location := bkl,
            en_passant_possible_log := ep_log, en_passant_possible := ep,
            castle_rights_log := cr_log,
            white_castle_king_side := cr.white_king_side,
            black_castle_king_side := cr.black_king_side,
            white_castle_queen_side := cr.white_queen_side,
            black_castle_queen_side := cr.black_queen_side,
            checkmate := false, stalemate := false}

/-- Whether the given side's king is attacked in `g`, computed with the
engine's own analyzer viewed from that side. -/
def sideInCheck (g : GameState) (white : Bool) : Bool :=
  (check_for_pins_and_checks {g with white_to_move := white}).1

/-- States reachable through the engine's public interface: the initial
state, a legality query, applying a move of the current legal-move list to
the state the query just mutated, or an undo. -/
inductive Reachable : GameState → Prop where
  | init : Reachable initialGameState
  | gen : ∀ {s}, Reachable s → Reachable (get_valid_moves s).2
  | move : ∀ {s m}, Reachable s → m ∈ (get_valid_moves s).1 →
      Reachable (make_move (get_valid_moves s).2 m)
  | undo : ∀ {s}, Reachable s → Reachable (undo_move s)

/-- Reachability without undo; every reachable state agrees with one of these
on all persistent fields. -/
inductive MakeReachable : GameState → Prop where
  | init : MakeReachable initialGameState
  | gen : ∀ {s}, MakeReachable s → MakeReachable (get_valid_moves s).2
  | move : ∀ {s m}, MakeReachable s → m ∈ (get_valid_moves s).1 →
      MakeReachable (make_move (get_valid_moves s).2 m)

/-- Reachability through `make_move` (with an arbitrary move argument) and
`undo_move` alone, the call pattern quantified over by the log-length
invariant. -/
inductive MoveUndoReachable : GameState → Prop where
  | init : MoveUndoReachable initialGameState
  | mk : ∀ {s : GameState} (m : Move), MoveUndoReachable s →
      MoveUndoReachable (make_move s m)
  | undo : ∀ {s : GameState}, MoveUndoReachable s → MoveUndoReachable (undo_move s)

/-- The persistent fields of a `GameState`: everything except the transient
analyzer/terminal fields `in_check`, `pins`, `checks`, `checkmate`,
`stalemate`, which every legality query recomputes. -/
structure Core where
  board : Board
  white_to_move : Bool
  move_log : List Move
  white_king_location : Int × Int
  black_king_location : Int × Int
  en_passant_possible : Option (Int × Int)
  en_passant_possible_log : List (Option (Int × Int))
  white_castle_king_side : Bool
  white_castle_queen_side : Bool
  black_castle_king_side : Bool
  black_castle_queen_side : Bool
  castle_rights_log : List CastleRights
deriving DecidableEq, Repr

/-- Project the persistent fields. -/
def core (g : GameState) : Core :=
  ⟨g.board, g.white_to_move, g.move_log, g.white_king_location,
   g.black_king_location, g.en_passant_possible, g.en_passant_possible_log,
   g.white_castle_king_side, g.white_castle_queen_side,
   g.black_castle_king_side, g.black_castle_queen_side, g.castle_rights_log⟩

/-! ### Concrete positions used to evaluate the engine -/

/-- The double pawn advance e2-e4. -/
def mvE4 : Move := mkMove (6, 4) (4, 4) initialGameState.board false false false

/-- The position after 1. e4. -/
def stAfterE4 : GameState := make_move (get_valid_moves initialGameState).2 mvE4

/-- Black's reply a7-a6. -/
def mvA6 : Move := mkMove (1, 0) (2, 0) stAfterE4.board false false false

/-- The position after 1. e4 a6. -/
def stAfterA6 : GameState := make_move (get_valid_moves stAfterE4).2 mvA6

/-- The queen sortie d1-h5, pinning the f7 pawn against the black king. -/
def mvQh5 : Move := mkMove (7, 3) (3, 7) stAfterA6.board false false false

/-- The position after 1. e4 a6 2. Qh5: black to move, the f7 pawn pinned
along the e8-h5 diagonal. -/
def stAfterQh5 : GameState := make_move (get_valid_moves stAfterA6).2 mvQh5

/-- The double advance f7-f5 of the pinned pawn. -/
def mvF7F5 : Move := mkMove (1, 5) (3, 5) stAfterQh5.board false false false

/-- Black king e8, black pawn f7 pinned diagonally by the white queen h5,
white king a1; black to move. -/
def pinnedPawnState : GameState := {initialGameState with
  board :=
    [[emptySq, emptySq, emptySq, emptySq, ('b','K'), emptySq, emptySq, emptySq],
     [emptySq, emptySq, emptySq, emptySq, emptySq, ('b','P'), emptySq, emptySq],
     [emptySq, emptySq, emptySq, emptySq, emptySq, emptySq, emptySq, emptySq],
     [emptySq, emptySq, emptySq, emptySq, emptySq, emptySq, emptySq, ('w','Q')],
     [emptySq, emptySq, emptySq, emptySq, emptySq, emptySq, emptySq, emptySq],
     [emptySq, emptySq, emptySq, emptySq, emptySq, emptySq, emptySq, emptySq],
     [emptySq, emptySq, emptySq, emptySq, emptySq, emptySq, emptySq, emptySq],
     [('w','K'), emptySq, emptySq, emptySq, emptySq, emptySq, emptySq, emptySq]]
  white_to_move := false
  white_king_location := (7, 0)
  black_king_location := (0, 4)}

/-- White king e1, white queen e2 pinned vertically by the black rook e8,
black king a8; white to move. -/
def pinnedQueenState : GameState := {initialGameState with
  board :=
    [[('b','K'), emptySq, emptySq, emptySq, ('b','R'), emptySq, emptySq, emptySq],
     [emptySq, emptySq, emptySq, emptySq, emptySq, emptySq, emptySq, emptySq],
     [emptySq, emptySq, emptySq, emptySq, emptySq, emptySq, emptySq, emptySq],
     [emptySq, emptySq, emptySq, emptySq, emptySq, emptySq, emptySq, emptySq],
     [emptySq, emptySq, emptySq, emptySq, emptySq, emptySq, emptySq, emptySq],
     [emptySq, emptySq, emptySq, emptySq, emptySq, emptySq, emptySq, emptySq],
     [emptySq, emptySq, emptySq, emptySq, ('w','Q'), emptySq, emptySq, emptySq],
     [emptySq, emptySq, emptySq, emptySq, ('w','K'), emptySq, emptySq, emptySq]]
  white_to_move := true
  white_king_location := (7, 4)
  black_king_location := (0, 0)}

/-- The pinned queen's off-axis rook-half move e2-d2. -/
def mvQueenOffAxis : Move :=
  mkMove (6, 4) (6, 3) pinnedQueenState.board false false false

/-- The claimed classic en-passant position, with one extra piece beyond the
attacker: white king c5, black pawn d5 (which just advanced d7-d5, so the
en-passant target is d6), white pawn e5, black rook f5, black knight g5,
black king h1; white to move.  Between the king and the rook stand only the
two pawns of the en-passant pair. -/
def epExposedState : GameState := {initialGameState with
  board :=
    [[emptySq, emptySq, emptySq, emptySq, emptySq, emptySq, emptySq, emptySq],
     [emptySq, emptySq, emptySq, emptySq, emptySq, emptySq, emptySq, emptySq],
     [emptySq, emptySq, emptySq, emptySq, emptySq, emptySq, emptySq, emptySq],
     [emptySq, emptySq, ('w','K'), ('b','P'), ('w','P'), ('b','R'), ('b','N'), emptySq],
     [emptySq, emptySq, emptySq, emptySq, emptySq, emptySq, emptySq, emptySq],
     [emptySq, emptySq, emptySq, emptySq, emptySq, emptySq, emptySq, emptySq],
     [emptySq, emptySq, emptySq, emptySq, emptySq, emptySq, emptySq, emptySq],
     [emptySq, emptySq, emptySq, emptySq, emptySq, emptySq, emptySq, ('b','K')]]
  white_to_move := true
  white_king_location := (3, 2)
  black_king_location := (7, 7)
  en_passant_possible := some (2, 3)}

/-- The en-passant capture e5xd6 in `epExposedState`. -/
def mvEpExposed : Move := mkMove (3, 4) (2, 3) epExposedState.board true false false

/-- A white pawn on d7 one step from the back rank, no white rooks on the
board, kings far away; white to move.  Used to exercise the promotion gate. -/
def promoReadyState : GameState := {initialGameState with
  board :=
    [[('b','K'), emptySq, emptySq, emptySq, emptySq, emptySq, emptySq, emptySq],
     [emptySq, emptySq, emptySq, ('w','P'), emptySq, emptySq, emptySq, emptySq],
     [emptySq, emptySq, emptySq, emptySq, emptySq, emptySq, emptySq, emptySq],
     [emptySq, emptySq, emptySq, emptySq, emptySq, emptySq, emptySq, emptySq],
     [emptySq, emptySq, emptySq, emptySq, emptySq, emptySq, emptySq, emptySq],
     [emptySq, emptySq, emptySq, emptySq, emptySq, emptySq, emptySq, emptySq],
     [emptySq, emptySq, emptySq, emptySq, emptySq, emptySq, emptySq, emptySq],
     [emptySq, emptySq, emptySq, emptySq, ('w','K'), emptySq, emptySq, emptySq]]
  white_to_move := true
  white_king_location := (7, 4)
  black_king_location := (0, 0)}

/-- A state whose white king cache `(5, 5)` does not point at the white king
on `a8`; the board is otherwise legal-looking (lone kings). -/
def staleCacheState : GameState := {initialGameState with
  board :=
    [[('w','K'), emptySq, emptySq, emptySq, emptySq, emptySq, emptySq, emptySq],
     [emptySq, emptySq, emptySq, emptySq, emptySq, emptySq, emptySq, emptySq],
     [emptySq, emptySq, emptySq, emptySq, emptySq, emptySq, emptySq, emptySq],
     [emptySq, emptySq, emptySq, emptySq, emptySq, emptySq, emptySq, emptySq],
     [emptySq, emptySq, emptySq, emptySq, emptySq, emptySq, emptySq, emptySq],
     [emptySq, emptySq, emptySq, emptySq, emptySq, emptySq, emptySq, emptySq],
     [emptySq, emptySq, emptySq, emptySq, emptySq, emptySq, emptySq, emptySq],
     [emptySq, emptySq, emptySq, emptySq, emptySq, emptySq, emptySq, ('b','K')]]
  white_to_move := true
  white_king_location := (5, 5)
  black_king_location := (7, 7)}

/-! ### Well-formedness of states and generated moves -/

/-- The board is an 8x8 grid. -/
def boardShape (b : Board) : Prop :=
  b.length = 8 ∧ ∀ r ∈ b, r.length = 8

/-- Every king on the board sits at its cached location (spec 3:
"the cached king coordinates always point at a square containing that
color's King"). -/
def kingInvProp (g : GameState) : Prop :=
  (∀ r c : Int, boardGet g.board r c = ('w', 'K') → (r, c) = g.white_king_location) ∧
  (∀ r c : Int, boardGet g.board r c = ('b', 'K') → (r, c) = g.black_king_location)

/-- The side to move's king cache covers every king of that color on the
board (the part of `kingInvProp` that a legality query relies on). -/
def sideKingCacheOK (g : GameState) : Prop :=
  ∀ r c : Int,
    boardGet g.board r c = (if g.white_to_move then 'w' else 'b', 'K') →
    (r, c) = (if g.white_to_move then g.white_king_location else g.black_king_location)

/-- Executable check of `kingInvProp` over the 64 squares. -/
def kingInvB (g : GameState) : Bool :=
  decide (∀ r ∈ List.range 8, ∀ c ∈ List.range 8,
    (boardGet g.board (r : Int) (c : Int) = ('w', 'K') →
      ((r : Int), (c : Int)) = g.white_king_location) ∧
    (boardGet g.board (r : Int) (c : Int) = ('b', 'K') →
      ((r : Int), (c : Int)) = g.black_king_location))

/-- A live en-passant target sits on the pawn-jump row for the side to move,
its square is empty, and the capturable pawn stands behind it. -/
def epInvProp (g : GameState) : Prop :=
  ∀ r c : Int, g.en_passant_possible = some (r, c) →
    (0 ≤ c ∧ c < 8) ∧
    (g.white_to_move = true →
      r = 2 ∧ boardGet g.board 2 c = emptySq ∧ boardGet g.board 3 c = ('b', 'P')) ∧
    (g.white_to_move = false →
      r = 5 ∧ boardGet g.board 5 c = emptySq ∧ boardGet g.board 4 c = ('w', 'P'))

/-- The snapshot logs end in the current snapshots and stay in lockstep with
the move log. -/
def logInv (g : GameState) : Prop :=
  g.en_passant_possible_log.getLast? = some g.en_passant_possible ∧
  g.castle_rights_log.getLast? =
    some ⟨g.white_castle_king_side, g.black_castle_king_side,
          g.white_castle_queen_side, g.black_castle_queen_side⟩ ∧
  g.en_passant_possible_log.length = g.move_log.length + 1 ∧
  g.castle_rights_log.length = g.move_log.length + 1

/-- Both king caches are on the board. -/
def cacheInBounds (g : GameState) : Prop :=
  (0 ≤ g.white_king_location.1 ∧ g.white_king_location.1 < 8 ∧
   0 ≤ g.white_king_location.2 ∧ g.white_king_location.2 < 8) ∧
  (0 ≤ g.black_king_location.1 ∧ g.black_king_location.1 < 8 ∧
   0 ≤ g.black_king_location.2 ∧ g.black_king_location.2 < 8)

/-- The state invariant maintained by the engine's interface. -/
def StateWF (g : GameState) : Prop :=
  boardShape g.board ∧ kingInvProp g ∧ epInvProp g ∧ logInv g ∧ cacheInBounds g

/-- Facts true of every move the generators emit for a state with board `b`,
side `wtm` and en-passant target `ep`: in-bounds coordinates, the moved and
captured pieces resolved from `b`, a genuine displacement, and the special
flags consistent with the generating branch. -/
structure MoveOK (b : Board) (wtm : Bool) (ep : Option (Int × Int)) (m : Move) :
    Prop where
  srb : 0 ≤ m.start_row ∧ m.start_row < 8
  scb : 0 ≤ m.start_column ∧ m.start_column < 8
  erb : 0 ≤ m.end_row ∧ m.end_row < 8
  ecb : 0 ≤ m.end_column ∧ m.end_column < 8
  pmoved : m.piece_moved = boardGet b m.start_row m.start_column
  nontrivial : ¬ (m.start_row = m.end_row ∧ m.start_column = m.end_column)
  castle : m.is_castle_move = false
  captured : m.is_en_passant_move = false →
    m.piece_captured = boardGet b m.end_row m.end_column
  promo : m.is_pawn_promotion = true → m.piece_moved.2 = 'P'
  enp : m.is_en_passant_move = true →
    m.piece_moved = ((if wtm then 'w' else 'b'), 'P') ∧
    m.piece_captured = ((if wtm then 'b' else 'w'), 'P') ∧
    ep = some (m.end_row, m.end_column) ∧
    m.end_row = m.start_row + (if wtm then -1 else 1) ∧
    m.end_column ≠ m.start_column ∧
    m.is_pawn_promotion = false
  dstep : m.piece_moved.2 = 'P' → (m.start_row - m.end_row).natAbs = 2 →
    m.piece_moved.1 = (if wtm then 'w' else 'b') ∧
    m.start_column = m.end_column ∧
    m.is_en_passant_move = false ∧
    m.is_pawn_promotion = false ∧
    m.start_row = (if wtm then 6 else 1) ∧
    m.end_row = m.start_row + 2 * (if wtm then (-1 : Int) else 1) ∧
    boardGet b (m.start_row + (if wtm then -1 else 1)) m.start_column = emptySq ∧
    boardGet b m.end_row m.start_column = emptySq

/-- Hypothesis for the promotion-gate analysis: any live en-passant target is
on one of the two pawn-jump rows (true in every reachable state). -/
def epRowsTame (g : GameState) : Prop :=
  ∀ r c : Int, g.en_passant_possible = some (r, c) → r = 2 ∨ r = 5

/-! ### Theorems -/

/-! #### List access lemmas -/

theorem lSet_length {α : Type} (l : List α) (n : Nat) (x : α) :
    (lSet l n x).length = l.length := by
  induction l generalizing n with
  | nil => simp [lSet]
  | cons y l ih =>
    cases n with
    | zero => simp [lSet]
    | succ n => simp [lSet, ih]

theorem lGet_lSet_self {α : Type} (d : α) (l : List α) (n : Nat) (x : α)
    (h : n < l.length) : lGet d (lSet l n x) n = x := by
  induction l generalizing n with
  | nil => simp at h
  | cons y l ih =>
    cases n with
    | zero => simp [lSet, lGet]
    | succ n => simpa [lSet, lGet] using ih n (by simpa using h)

theorem lGet_lSet_ne {α : Type} (d : α) (l : List α) (n m : Nat) (x : α)
    (h : n ≠ m) : lGet d (lSet l n x) m = lGet d l m := by
  induction l generalizing n m with
  | nil => simp [lSet]
  | cons y l ih =>
    cases n with
    | zero =>
      cases m with
      | zero => exact absurd rfl h
      | succ m => simp [lSet, lGet]
    | succ n =>
      cases m with
      | zero => simp [lSet, lGet]
      | succ m => simpa [lSet, lGet] using ih n m (by omega)

theorem lSet_lSet_same {α : Type} (l : List α) (n : Nat) (x y : α) :
    lSet (lSet l n x) n y = lSet l n y := by
  induction l generalizing n with
  | nil => simp [lSet]
  | cons z l ih =>
    cases n with
    | zero => simp [lSet]
    | succ n => simp [lSet, ih]

theorem lSet_comm {α : Type} (l : List α) (n m : Nat) (x y : α) (h : n ≠ m) :
    lSet (lSet l n x) m y = lSet (lSet l m y) n x := by
  induction l generalizing n m with
  | nil => simp [lSet]
  | cons z l ih =>
    cases n with
    | zero =>
      cases m with
      | zero => exact absurd rfl h
      | succ m => simp [lSet]
    | succ n =>
      cases m with
      | zero => simp [lSet]
      | succ m => simp [lSet, ih n m (by omega)]

theorem lSet_lGet_self {α : Type} (d : α) (l : List α) (n : Nat)
    (h : n < l.length) : lSet l n (lGet d l n) = l := by
  induction l generalizing n with
  | nil => simp [lSet]
  | cons y l ih =>
    cases n with
    | zero => simp [lSet, lGet]
    | succ n => simpa [lSet, lGet] using ih n (by simpa using h)

theorem lSet_out_of_range {α : Type} (l : List α) (n : Nat) (z : α)
    (hn : ¬ n < l.length) : lSet l n z = l := by
  induction l generalizing n with
  | nil => simp [lSet]
  | cons w l ih =>
    cases n with
    | zero => simp at hn
    | succ n => simp [lSet, ih n (by simp at hn ⊢; omega)]

theorem lGet_mem {α : Type} (d : α) (l : List α) (n : Nat) (h : n < l.length) :
    lGet d l n ∈ l := by
  induction l generalizing n with
  | nil => simp at h
  | cons y l ih =>
    cases n with
    | zero => simp [lGet]
    | succ n => exact List.mem_cons_of_mem _ (ih n (by simpa using h))

/-! #### Board lemmas -/

theorem mem_lSet {α : Type} (l : List α) (n : Nat) (x : α) :
    ∀ y ∈ lSet l n x, y ∈ l ∨ y = x := by
  induction l generalizing n with
  | nil => simp [lSet]
  | cons z l ih =>
    intro y hy
    cases n with
    | zero =>
      rcases List.mem_cons.mp hy with h1 | h1
      · right; exact h1
      · left; exact List.mem_cons_of_mem _ h1
    | succ n =>
      rcases List.mem_cons.mp hy with h1 | h1
      · left; simp [h1]
      · rcases ih n y h1 with h2 | h2
        · left; exact List.mem_cons_of_mem _ h2
        · right; exact h2

theorem boardShape_boardSet (b : Board) (r c : Int) (x : Square)
    (h : boardShape b) : boardShape (boardSet b r c x) := by
  unfold boardShape boardSet
  split
  · next hb =>
    refine ⟨by rw [lSet_length]; exact h.1, ?_⟩
    intro row hrow
    rcases mem_lSet _ _ _ row hrow with h1 | h1
    · exact h.2 _ h1
    · have hlt : r.toNat < b.length := by
        rw [h.1]; omega
      have hmem : lGet [] b r.toNat ∈ b := lGet_mem [] b r.toNat hlt
      rw [h1, lSet_length]
      exact h.2 _ hmem
  · exact h

theorem boardGet_boardSet_self (b : Board) (r c : Int) (x : Square)
    (h : boardShape b) (hr : 0 ≤ r ∧ r < 8) (hc : 0 ≤ c ∧ c < 8) :
    boardGet (boardSet b r c x) r c = x := by
  have hcond : 0 ≤ r ∧ r < 8 ∧ 0 ≤ c ∧ c < 8 := ⟨hr.1, hr.2, hc.1, hc.2⟩
  have hltr : r.toNat < b.length := by rw [h.1]; omega
  have hltc : c.toNat < (lGet [] b r.toNat).length := by
    rw [h.2 _ (lGet_mem [] b r.toNat hltr)]; omega
  unfold boardGet boardSet
  rw [if_pos hcond, if_pos hcond, lGet_lSet_self _ _ _ _ hltr,
    lGet_lSet_self _ _ _ _ hltc]

theorem boardGet_boardSet_ne (b : Board) (r c r' c' : Int) (x : Square)
    (h : ¬ (r = r' ∧ c = c')) :
    boardGet (boardSet b r c x) r' c' = boardGet b r' c' := by
  unfold boardGet boardSet
  by_cases h1 : 0 ≤ r ∧ r < 8 ∧ 0 ≤ c ∧ c < 8
  · by_cases h2 : 0 ≤ r' ∧ r' < 8 ∧ 0 ≤ c' ∧ c' < 8
    · rw [if_pos h1, if_pos h2, if_pos h2]
      by_cases hrr : r = r'
      · have hcc : c ≠ c' := fun hc => h ⟨hrr, hc⟩
        have hccn : c.toNat ≠ c'.toNat := by omega
        subst hrr
        by_cases hlen : r.toNat < b.length
        · rw [lGet_lSet_self _ _ _ _ hlen, lGet_lSet_ne _ _ _ _ _ hccn]
        · rw [lSet_out_of_range _ _ _ hlen]
      · have hrn : r.toNat ≠ r'.toNat := by omega
        rw [lGet_lSet_ne _ _ _ _ _ hrn]
    · rw [if_neg h2, if_neg h2]
  · rw [if_neg h1]

theorem boardSet_boardSet_self (b : Board) (r c : Int) (x y : Square) :
    boardSet (boardSet b r c x) r c y = boardSet b r c y := by
  unfold boardSet
  by_cases h1 : 0 ≤ r ∧ r < 8 ∧ 0 ≤ c ∧ c < 8
  · rw [if_pos h1, if_pos h1, if_pos h1]
    by_cases hlen : r.toNat < b.length
    · rw [lGet_lSet_self _ _ _ _ hlen, lSet_lSet_same, lSet_lSet_same]
    · rw [lSet_out_of_range b _ _ hlen, lSet_out_of_range b _ _ hlen]
  · rw [if_neg h1, if_neg h1, if_neg h1]

theorem boardSet_comm (b : Board) (r c r' c' : Int) (x y : Square)
    (h : ¬ (r = r' ∧ c = c')) :
    boardSet (boardSet b r c x) r' c' y = boardSet (boardSet b r' c' y) r c x := by
  unfold boardSet
  by_cases h1 : 0 ≤ r ∧ r < 8 ∧ 0 ≤ c ∧ c < 8
  · by_cases h2 : 0 ≤ r' ∧ r' < 8 ∧ 0 ≤ c' ∧ c' < 8
    · rw [if_pos h1, if_pos h2, if_pos h2, if_pos h1]
      by_cases hlenr : r.toNat < b.length
      · by_cases hrr : r = r'
        · have hcc : c.toNat ≠ c'.toNat := by
            have : c ≠ c' := fun hc => h ⟨hrr, hc⟩
            omega
          subst hrr
          rw [lGet_lSet_self _ _ _ _ hlenr, lGet_lSet_self _ _ _ _ hlenr,
            lSet_lSet_same, lSet_lSet_same, lSet_comm _ _ _ _ _ hcc]
        · have hrn : r.toNat ≠ r'.toNat := by omega
          rw [lGet_lSet_ne _ _ _ _ _ hrn, lGet_lSet_ne _ _ _ _ _ (Ne.symm hrn),
            lSet_comm _ _ _ _ _ hrn]
      · have e1 : lSet b r.toNat (lSet (lGet [] b r.toNat) c.toNat x) = b :=
          lSet_out_of_range _ _ _ hlenr
        rw [e1]
        have hlen2 : ¬ r.toNat <
            (lSet b r'.toNat (lSet (lGet [] b r'.toNat) c'.toNat y)).length := by
          rwa [lSet_length]
        rw [lSet_out_of_range _ _ _ hlen2]
    · rw [if_pos h1, if_neg h2, if_neg h2, if_pos h1]
  · rw [if_neg h1, if_neg h1]

theorem boardSet_boardGet_self (b : Board) (r c : Int) (h : boardShape b) :
    boardSet b r c (boardGet b r c) = b := by
  unfold boardGet boardSet
  by_cases h1 : 0 ≤ r ∧ r < 8 ∧ 0 ≤ c ∧ c < 8
  · rw [if_pos h1, if_pos h1]
    have hltr : r.toNat < b.length := by rw [h.1]; omega
    have hltc : c.toNat < (lGet [] b r.toNat).length := by
      rw [h.2 _ (lGet_mem [] b r.toNat hltr)]; omega
    rw [lSet_lGet_self _ _ _ hltc, lSet_lGet_self _ _ _ hltr]
  · rw [if_neg h1]

/-! #### Move generator soundness: every emitted move satisfies `MoveOK` -/

theorem moveOK_plain (b : Board) (wtm : Bool) (ep : Option (Int × Int))
    (row col er ec : Int)
    (h1 : 0 ≤ row ∧ row < 8) (h2 : 0 ≤ col ∧ col < 8)
    (h3 : 0 ≤ er ∧ er < 8) (h4 : 0 ≤ ec ∧ ec < 8)
    (hne : ¬ (row = er ∧ col = ec))
    (hd : (boardGet b row col).2 = 'P' → (row - er).natAbs = 2 →
      (boardGet b row col).1 = (if wtm then 'w' else 'b') ∧ col = ec ∧
      row = (if wtm then (6 : Int) else 1) ∧
      er = row + 2 * (if wtm then (-1 : Int) else 1) ∧
      boardGet b (row + (if wtm then (-1 : Int) else 1)) col = emptySq ∧
      boardGet b er col = emptySq) :
    MoveOK b wtm ep (mkMove (row, col) (er, ec) b false false false) := by
  refine ⟨h1, h2, h3, h4, rfl, hne, rfl, fun _ => rfl, ?_, ?_, ?_⟩
  · intro h; simp [mkMove] at h
  · intro h; simp [mkMove] at h
  · intro hp hn
    obtain ⟨a1, a2, a3, a4, a5, a6⟩ := hd hp hn
    exact ⟨a1, a2, rfl, rfl, a3, a4, a5, a6⟩

theorem moveOK_promo (b : Board) (wtm : Bool) (ep : Option (Int × Int))
    (row col er ec : Int)
    (h1 : 0 ≤ row ∧ row < 8) (h2 : 0 ≤ col ∧ col < 8)
    (h3 : 0 ≤ er ∧ er < 8) (h4 : 0 ≤ ec ∧ ec < 8)
    (hne : ¬ (row = er ∧ col = ec))
    (hpawn : (boardGet b row col).2 = 'P')
    (hone : (row - er).natAbs = 1) :
    MoveOK b wtm ep (mkMove (row, col) (er, ec) b false true false) := by
  refine ⟨h1, h2, h3, h4, rfl, hne, rfl, fun _ => rfl, fun _ => hpawn, ?_, ?_⟩
  · intro h; simp [mkMove] at h
  · intro _ hn
    have hn' : (row - er).natAbs = 2 := hn
    omega

theorem moveOK_ep (b : Board) (wtm : Bool) (ep : Option (Int × Int))
    (row col er ec : Int)
    (h1 : 0 ≤ row ∧ row < 8) (h2 : 0 ≤ col ∧ col < 8)
    (h3 : 0 ≤ er ∧ er < 8) (h4 : 0 ≤ ec ∧ ec < 8)
    (hpm : boardGet b row col = ((if wtm then 'w' else 'b'), 'P'))
    (hep : ep = some (er, ec))
    (her : er = row + (if wtm then (-1 : Int) else 1))
    (hec : ec = col - 1 ∨ ec = col + 1) :
    MoveOK b wtm ep (mkMove (row, col) (er, ec) b true false false) := by
  have hne : ¬ (row = er ∧ col = ec) := by
    intro hcon
    rcases hec with h | h <;> omega
  refine ⟨h1, h2, h3, h4, rfl, hne, rfl, ?_, ?_, ?_, ?_⟩
  · intro h; simp [mkMove] at h
  · intro h; simp [mkMove] at h
  · intro _
    refine ⟨hpm, ?_, hep, her,
      by intro hcol
         have hcol' : ec = col := hcol
         rcases hec with h | h <;> omega, rfl⟩
    cases wtm
    · simp only [Bool.false_eq_true, if_false] at hpm ⊢
      simp [mkMove, hpm]
    · simp only [if_true] at hpm ⊢
      simp [mkMove, hpm]
  · intro hp hn
    have hn' : (row - er).natAbs = 2 := hn
    cases wtm <;> simp at her <;> omega

theorem slideRayAux_mem (b : Board) (opp : Char) (row col dr dc : Int) :
    ∀ (fuel : Nat) (i : Int) (m : Move), m ∈ slideRayAux b opp row col dr dc fuel i →
    ∃ k : Int, i ≤ k ∧
      (0 ≤ row + dr * k ∧ row + dr * k < 8 ∧ 0 ≤ col + dc * k ∧ col + dc * k < 8) ∧
      m = mkMove (row, col) (row + dr * k, col + dc * k) b false false false := by
  intro fuel
  induction fuel with
  | zero => intro i m hm; simp [slideRayAux] at hm
  | succ fuel ih =>
    intro i m hm
    simp only [slideRayAux] at hm
    split at hm
    · next hb =>
      split at hm
      · rcases List.mem_cons.mp hm with h1 | h1
        · exact ⟨i, le_refl i, hb, h1⟩
        · obtain ⟨k, hk1, hk2, hk3⟩ := ih (i + 1) m h1
          exact ⟨k, by omega, hk2, hk3⟩
      · split at hm
        · rcases List.mem_singleton.mp hm with h1
          exact ⟨i, le_refl i, hb, h1⟩
        · simp at hm
    · simp at hm

theorem slideDirs_mem (b : Board) (opp : Char) (pp : Bool)
    (pd : Option (Int × Int)) (row col : Int) (dirs : List (Int × Int)) :
    ∀ (ms : List Move) (m : Move), m ∈ slideDirs b opp pp pd row col dirs ms →
    m ∈ ms ∨ ∃ d ∈ dirs, m ∈ slideRayAux b opp row col d.1 d.2 7 1 := by
  induction dirs with
  | nil => intro ms m hm; left; simpa [slideDirs] using hm
  | cons d dirs ih =>
    intro ms m hm
    simp only [slideDirs, List.foldl_cons] at hm
    rcases ih _ m hm with h1 | ⟨d', hd', hm'⟩
    · rcases List.mem_append.mp h1 with h2 | h2
      · left; exact h2
      · right
        refine ⟨d, List.mem_cons_self _ _, ?_⟩
        revert h2
        split
        · exact fun h => h
        · intro h; simp at h
    · right; exact ⟨d', List.mem_cons_of_mem _ hd', hm'⟩

theorem rookFields_moveOK (b : Board) (wtm : Bool) (ep : Option (Int × Int))
    (pins : List Pin) (row col : Int) (ms : List Move)
    (hr : 0 ≤ row ∧ row < 8) (hc : 0 ≤ col ∧ col < 8)
    (hnp : (boardGet b row col).2 ≠ 'P') :
    ∀ m ∈ (rookFields b wtm pins row col ms).1, m ∈ ms ∨ MoveOK b wtm ep m := by
  intro m hm
  simp only [rookFields] at hm
  rcases slideDirs_mem _ _ _ _ _ _ _ _ m hm with h1 | ⟨d, hd, hray⟩
  · left; exact h1
  · right
    obtain ⟨k, hk1, hk2, hk3⟩ := slideRayAux_mem _ _ _ _ _ _ _ _ m hray
    have hdne : ¬ (d.1 = 0 ∧ d.2 = 0) := by
      fin_cases hd <;> decide
    subst hk3
    refine moveOK_plain b wtm ep row col _ _ hr hc ⟨hk2.1, hk2.2.1⟩
      ⟨hk2.2.2.1, hk2.2.2.2⟩ ?_ (fun hp _ => absurd hp hnp)
    intro hcon
    have e1 : d.1 * k = 0 := by omega
    have e2 : d.2 * k = 0 := by omega
    rcases mul_eq_zero.mp e1 with h | h
    · rcases mul_eq_zero.mp e2 with h' | h'
      · exact hdne ⟨h, h'⟩
      · omega
    · omega

theorem bishopFields_moveOK (b : Board) (wtm : Bool) (ep : Option (Int × Int))
    (pins : List Pin) (row col : Int) (ms : List Move)
    (hr : 0 ≤ row ∧ row < 8) (hc : 0 ≤ col ∧ col < 8)
    (hnp : (boardGet b row col).2 ≠ 'P') :
    ∀ m ∈ (bishopFields b wtm pins row col ms).1, m ∈ ms ∨ MoveOK b wtm ep m := by
  intro m hm
  simp only [bishopFields] at hm
  rcases slideDirs_mem _ _ _ _ _ _ _ _ m hm with h1 | ⟨d, hd, hray⟩
  · left; exact h1
  · right
    obtain ⟨k, hk1, hk2, hk3⟩ := slideRayAux_mem _ _ _ _ _ _ _ _ m hray
    have hdne : ¬ (d.1 = 0 ∧ d.2 = 0) := by
      fin_cases hd <;> decide
    subst hk3
    refine moveOK_plain b wtm ep row col _ _ hr hc ⟨hk2.1, hk2.2.1⟩
      ⟨hk2.2.2.1, hk2.2.2.2⟩ ?_ (fun hp _ => absurd hp hnp)
    intro hcon
    have e1 : d.1 * k = 0 := by omega
    have e2 : d.2 * k = 0 := by omega
    rcases mul_eq_zero.mp e1 with h | h
    · rcases mul_eq_zero.mp e2 with h' | h'
      · exact hdne ⟨h, h'⟩
      · omega
    · omega

theorem queenFields_moveOK (b : Board) (wtm : Bool) (ep : Option (Int × Int))
    (pins : List Pin) (row col : Int) (ms : List Move)
    (hr : 0 ≤ row ∧ row < 8) (hc : 0 ≤ col ∧ col < 8)
    (hnp : (boardGet b row col).2 ≠ 'P') :
    ∀ m ∈ (queenFields b wtm pins row col ms).1, m ∈ ms ∨ MoveOK b wtm ep m := by
  intro m hm
  simp only [queenFields] at hm
  rcases rookFields_moveOK b wtm ep _ row col _ hr hc hnp m hm with h1 | h1
  · exact bishopFields_moveOK b wtm ep _ row col _ hr hc hnp m h1
  · right; exact h1

theorem knightFields_moveOK (b : Board) (wtm : Bool) (ep : Option (Int × Int))
    (pins : List Pin) (row col : Int) (ms : List Move)
    (hr : 0 ≤ row ∧ row < 8) (hc : 0 ≤ col ∧ col < 8)
    (hnp : (boardGet b row col).2 ≠ 'P') :
    ∀ m ∈ (knightFields b wtm pins row col ms).1, m ∈ ms ∨ MoveOK b wtm ep m := by
  intro m hm
  simp only [knightFields] at hm
  rcases List.mem_append.mp hm with h1 | h1
  · left; exact h1
  · right
    obtain ⟨d, hd, heq⟩ := List.mem_filterMap.mp h1
    have hd1 : d.1 ≠ 0 := by fin_cases hd <;> decide
    by_cases hb : 0 ≤ row + d.1 ∧ row + d.1 < 8 ∧ 0 ≤ col + d.2 ∧ col + d.2 < 8
    · rw [if_pos hb] at heq
      have hmeq : m = mkMove (row, col) (row + d.1, col + d.2) b false false false := by
        by_cases hpin : ¬ (findPin pins row col).isSome = true
        · rw [if_pos hpin] at heq
          split at heq <;>
          · simp at heq
            exact heq.2.symm
        · rw [if_neg hpin] at heq; simp at heq
      subst hmeq
      refine moveOK_plain b wtm ep row col _ _ hr hc ⟨hb.1, hb.2.1⟩
        ⟨hb.2.2.1, hb.2.2.2⟩ ?_ (fun hp _ => absurd hp hnp)
      intro hcon
      exact hd1 (by omega)
    · rw [if_neg hb] at heq; simp at heq

theorem foldl_preserve {α β : Type} (P : β → Prop) (f : β → α → β) :
    ∀ (l : List α) (acc : β), P acc → (∀ acc x, x ∈ l → P acc → P (f acc x)) →
    P (l.foldl f acc) := by
  intro l
  induction l with
  | nil => intro acc h _; exact h
  | cons x l ih =>
    intro acc h hstep
    exact ih (f acc x) (hstep acc x (List.mem_cons_self x l) h)
      (fun a y hy ha => hstep a y (List.mem_cons_of_mem x hy) ha)

theorem kingStep_mem (b : Board) (wtm : Bool) (ally : Char) (row col : Int)
    (acc : List Move × (Int × Int) × (Int × Int)) (d : Int × Int) :
    ∀ m ∈ (kingStep b wtm ally row col acc d).1, m ∈ acc.1 ∨
      ((0 ≤ row + d.1 ∧ row + d.1 < 8 ∧ 0 ≤ col + d.2 ∧ col + d.2 < 8) ∧
       m = mkMove (row, col) (row + d.1, col + d.2) b false false false) := by
  intro m hm
  simp only [kingStep] at hm
  split at hm
  · next hb =>
    split at hm
    · split at hm <;> split at hm <;>
        first
          | (rcases List.mem_append.mp hm with h1 | h1
             · exact Or.inl h1
             · exact Or.inr ⟨hb, List.mem_singleton.mp h1⟩)
          | exact Or.inl hm
    · exact Or.inl hm
  · exact Or.inl hm

theorem kingFields_mem (b : Board) (wtm : Bool) (wkl bkl : Int × Int)
    (row col : Int) (ms : List Move) :
    ∀ m ∈ (kingFields b wtm wkl bkl row col ms).1, m ∈ ms ∨
      ∃ d ∈ kingOffsets,
        (0 ≤ row + d.1 ∧ row + d.1 < 8 ∧ 0 ≤ col + d.2 ∧ col + d.2 < 8) ∧
        m = mkMove (row, col) (row + d.1, col + d.2) b false false false := by
  unfold kingFields
  exact foldl_preserve
    (fun acc => ∀ m ∈ acc.1, m ∈ ms ∨ ∃ d ∈ kingOffsets,
      (0 ≤ row + d.1 ∧ row + d.1 < 8 ∧ 0 ≤ col + d.2 ∧ col + d.2 < 8) ∧
      m = mkMove (row, col) (row + d.1, col + d.2) b false false false)
    (kingStep b wtm (if wtm then 'w' else 'b') row col) kingOffsets (ms, wkl, bkl)
    (fun m hm => Or.inl hm)
    (by
      intro acc d hd hacc m hm
      rcases kingStep_mem b wtm _ row col acc d m hm with h1 | ⟨hb, rfl⟩
      · exact hacc m h1
      · exact Or.inr ⟨d, hd, hb, rfl⟩)

theorem kingFields_moveOK (b : Board) (wtm : Bool) (ep : Option (Int × Int))
    (wkl bkl : Int × Int) (row col : Int) (ms : List Move)
    (hr : 0 ≤ row ∧ row < 8) (hc : 0 ≤ col ∧ col < 8) :
    ∀ m ∈ (kingFields b wtm wkl bkl row col ms).1, m ∈ ms ∨ MoveOK b wtm ep m := by
  intro m hm
  rcases kingFields_mem b wtm wkl bkl row col ms m hm with h1 | ⟨d, hd, hb, rfl⟩
  · left; exact h1
  · right
    have hdp : d.1.natAbs ≤ 1 ∧ ¬ (d.1 = 0 ∧ d.2 = 0) := by
      fin_cases hd <;> decide
    refine moveOK_plain b wtm ep row col _ _ hr hc ⟨hb.1, hb.2.1⟩
      ⟨hb.2.2.1, hb.2.2.2⟩ ?_ ?_
    · intro hcon
      exact hdp.2 ⟨by omega, by omega⟩
    · intro _ hn
      have h1 := hdp.1
      omega

theorem pawnForwardMoves_mem (b : Board) (ma sr br : Int) (pp : Bool)
    (pd : Option (Int × Int)) (pa : Bool) (row col : Int) :
    ∀ m ∈ pawnForwardMoves b ma sr br pp pd pa row col,
      (0 ≤ row + ma ∧ row + ma < 8) ∧
      boardGet b (row + ma) col = emptySq ∧
      ((m = mkMove (row, col) (row + ma, col) b false true false ∧
        row + ma = br ∧ pa = true) ∨
       (m = mkMove (row, col) (row + ma, col) b false false false ∧
        row + ma ≠ br) ∨
       (m = mkMove (row, col) (row + 2 * ma, col) b false false false ∧
        row = sr ∧ boardGet b (row + 2 * ma) col = emptySq)) := by
  intro m hm
  unfold pawnForwardMoves at hm
  split at hm
  · next hbnd =>
    split at hm
    · next hemp =>
      refine ⟨hbnd, hemp, ?_⟩
      rcases List.mem_append.mp hm with h1 | h1
      · split at h1
        · split at h1
          · next hcond =>
            left
            exact ⟨List.mem_singleton.mp h1, hcond.1, hcond.2⟩
          · split at h1
            · next hcond =>
              right; left
              exact ⟨List.mem_singleton.mp h1, hcond⟩
            · simp at h1
        · simp at h1
      · split at h1
        · next hcond =>
          right; right
          exact ⟨List.mem_singleton.mp h1, hcond.1, hcond.2⟩
        · simp at h1
    · simp at hm
  · simp at hm

theorem pawnCaptureLeft_mem (b : Board) (ma br : Int) (opp : Char)
    (ep : Option (Int × Int)) (pp : Bool) (pd : Option (Int × Int)) (pa : Bool)
    (king_row king_column row col : Int) :
    ∀ m ∈ pawnCaptureLeft b ma br opp ep pp pd pa king_row king_column row col,
      (col - 1 ≥ 0 ∧ 0 ≤ row + ma ∧ row + ma < 8) ∧
      ((m = mkMove (row, col) (row + ma, col - 1) b false true false ∧
        row + ma = br ∧ pa = true) ∨
       (m = mkMove (row, col) (row + ma, col - 1) b false false false ∧
        row + ma ≠ br) ∨
       (m = mkMove (row, col) (row + ma, col - 1) b true false false ∧
        ep = some (row + ma, col - 1))) := by
  intro m hm
  unfold pawnCaptureLeft at hm
  split at hm
  · next hbnd =>
    split at hm
    · refine ⟨hbnd, ?_⟩
      rcases List.mem_append.mp hm with h1 | h1
      · split at h1
        · split at h1
          · next hcond =>
            left
            exact ⟨List.mem_singleton.mp h1, hcond.1, hcond.2⟩
          · split at h1
            · next hcond =>
              right; left
              exact ⟨List.mem_singleton.mp h1, hcond⟩
            · simp at h1
        · simp at h1
      · split at h1
        · next hep =>
          split at h1
          · right; right
            exact ⟨List.mem_singleton.mp h1, hep⟩
          · simp at h1
        · simp at h1
    · simp at hm
  · simp at hm

theorem pawnCaptureRight_mem (b : Board) (ma br : Int) (opp : Char)
    (ep : Option (Int × Int)) (pp : Bool) (pd : Option (Int × Int)) (pa : Bool)
    (king_row king_column row col : Int) :
    ∀ m ∈ pawnCaptureRight b ma br opp ep pp pd pa king_row king_column row col,
      (col + 1 < 8 ∧ 0 ≤ row + ma ∧ row + ma < 8) ∧
      ((m = mkMove (row, col) (row + ma, col + 1) b false true false ∧
        row + ma = br ∧ pa = true) ∨
       (m = mkMove (row, col) (row + ma, col + 1) b false false false ∧
        row + ma ≠ br) ∨
       (m = mkMove (row, col) (row + ma, col + 1) b true false false ∧
        ep = some (row + ma, col + 1))) := by
  intro m hm
  unfold pawnCaptureRight at hm
  split at hm
  · next hbnd =>
    split at hm
    · refine ⟨hbnd, ?_⟩
      rcases List.mem_append.mp hm with h1 | h1
      · split at h1
        · split at h1
          · next hcond =>
            left
            exact ⟨List.mem_singleton.mp h1, hcond.1, hcond.2⟩
          · split at h1
            · next hcond =>
              right; left
              exact ⟨List.mem_singleton.mp h1, hcond⟩
            · simp at h1
        · simp at h1
      · split at h1
        · next hep =>
          split at h1
          · right; right
            exact ⟨List.mem_singleton.mp h1, hep⟩
          · simp at h1
        · simp at h1
    · simp at hm
  · simp at hm

theorem pawnFields_moveOK (b : Board) (wtm : Bool) (ep : Option (Int × Int))
    (pins : List Pin) (wkl bkl : Int × Int) (row col : Int) (ms : List Move)
    (hr : 0 ≤ row ∧ row < 8) (hc : 0 ≤ col ∧ col < 8)
    (hp : boardGet b row col = ((if wtm then 'w' else 'b'), 'P')) :
    ∀ m ∈ (pawnFields b wtm ep pins wkl bkl row col ms).1,
      m ∈ ms ∨ MoveOK b wtm ep m := by
  intro m hm
  simp only [pawnFields, List.append_assoc] at hm
  rcases List.mem_append.mp hm with h1 | h1
  · left; exact h1
  · right
    rcases List.mem_append.mp h1 with h2 | h2
    · obtain ⟨hbnd, hemp, hcase⟩ := pawnForwardMoves_mem b _ _ _ _ _ _ row col m h2
      rcases hcase with ⟨rfl, hbr, _⟩ | ⟨rfl, hbr⟩ | ⟨rfl, hsr, hemp2⟩
      · refine moveOK_promo b wtm ep row col _ _ hr hc hbnd hc ?_
          (by rw [hp]) (by cases wtm <;> simp <;> omega)
        intro hcon
        cases wtm <;> simp at hcon <;> omega
      · refine moveOK_plain b wtm ep row col _ _ hr hc hbnd hc ?_ ?_
        · intro hcon
          cases wtm <;> simp at hcon <;> omega
        · intro _ hn
          cases wtm <;> simp at hn <;> omega
      · have hend : 0 ≤ row + 2 * (if wtm then (-1 : Int) else 1) ∧
            row + 2 * (if wtm then (-1 : Int) else 1) < 8 := by
          cases wtm <;> simp at hsr ⊢ <;> omega
        refine moveOK_plain b wtm ep row col _ _ hr hc hend hc ?_ ?_
        · intro hcon
          cases wtm <;> simp at hcon <;> omega
        · intro _ _
          exact ⟨by rw [hp], rfl, hsr, rfl, hemp, hemp2⟩
    · rcases List.mem_append.mp h2 with h3 | h3
      · obtain ⟨hbnd, hcase⟩ := pawnCaptureLeft_mem b _ _ _ ep _ _ _ _ _ row col m h3
        have hcb : 0 ≤ col - 1 ∧ col - 1 < 8 := by omega
        rcases hcase with ⟨rfl, hbr, _⟩ | ⟨rfl, hbr⟩ | ⟨rfl, hepc⟩
        · refine moveOK_promo b wtm ep row col _ _ hr hc ⟨hbnd.2.1, hbnd.2.2⟩ hcb ?_
            (by rw [hp]) (by cases wtm <;> simp <;> omega)
          intro hcon
          omega
        · refine moveOK_plain b wtm ep row col _ _ hr hc ⟨hbnd.2.1, hbnd.2.2⟩ hcb ?_ ?_
          · intro hcon
            omega
          · intro _ hn
            cases wtm <;> simp at hn <;> omega
        · exact moveOK_ep b wtm ep row col _ _ hr hc ⟨hbnd.2.1, hbnd.2.2⟩ hcb hp hepc
            rfl (Or.inl rfl)
      · obtain ⟨hbnd, hcase⟩ := pawnCaptureRight_mem b _ _ _ ep _ _ _ _ _ row col m h3
        have hcb : 0 ≤ col + 1 ∧ col + 1 < 8 := by omega
        rcases hcase with ⟨rfl, hbr, _⟩ | ⟨rfl, hbr⟩ | ⟨rfl, hepc⟩
        · refine moveOK_promo b wtm ep row col _ _ hr hc ⟨hbnd.2.1, hbnd.2.2⟩ hcb ?_
            (by rw [hp]) (by cases wtm <;> simp <;> omega)
          intro hcon
          omega
        · refine moveOK_plain b wtm ep row col _ _ hr hc ⟨hbnd.2.1, hbnd.2.2⟩ hcb ?_ ?_
          · intro hcon
            omega
          · intro _ hn
            cases wtm <;> simp at hn <;> omega
        · exact moveOK_ep b wtm ep row col _ _ hr hc ⟨hbnd.2.1, hbnd.2.2⟩ hcb hp hepc
            rfl (Or.inr rfl)

theorem apmStep_moveOK (b : Board) (wtm : Bool) (ep : Option (Int × Int))
    (acc : List Move × List Pin × (Int × Int) × (Int × Int)) (row col : Int)
    (hr : 0 ≤ row ∧ row < 8) (hc : 0 ≤ col ∧ col < 8)
    (hacc : ∀ m ∈ acc.1, MoveOK b wtm ep m) :
    ∀ m ∈ (apmStep b wtm ep acc row col).1, MoveOK b wtm ep m := by
  intro m hm
  simp only [apmStep] at hm
  split at hm
  · next hturn =>
    have hcolor : (boardGet b row col).1 = (if wtm then 'w' else 'b') := by
      rcases hturn with ⟨h1, h2⟩ | ⟨h1, h2⟩
      · simp [h1, h2]
      · simp [h1, h2]
    split at hm
    · next hP =>
      have hp : boardGet b row col = ((if wtm then 'w' else 'b'), 'P') := by
        rw [← hcolor, ← hP]
      rcases pawnFields_moveOK b wtm ep _ _ _ row col _ hr hc hp m hm with h1 | h1
      · exact hacc m h1
      · exact h1
    · split at hm
      · next hR =>
        rcases rookFields_moveOK b wtm ep _ row col _ hr hc
            (by rw [hR]; decide) m hm with h1 | h1
        · exact hacc m h1
        · exact h1
      · split at hm
        · next hN =>
          rcases knightFields_moveOK b wtm ep _ row col _ hr hc
              (by rw [hN]; decide) m hm with h1 | h1
          · exact hacc m h1
          · exact h1
        · split at hm
          · next hB =>
            rcases bishopFields_moveOK b wtm ep _ row col _ hr hc
                (by rw [hB]; decide) m hm with h1 | h1
            · exact hacc m h1
            · exact h1
          · split at hm
            · next hQ =>
              rcases queenFields_moveOK b wtm ep _ row col _ hr hc
                  (by rw [hQ]; decide) m hm with h1 | h1
              · exact hacc m h1
              · exact h1
            · split at hm
              · rcases kingFields_moveOK b wtm ep _ _ row col _ hr hc m hm with h1 | h1
                · exact hacc m h1
                · exact h1
              · exact hacc m hm
  · exact hacc m hm

theorem apmFields_moveOK (b : Board) (wtm : Bool) (ep : Option (Int × Int))
    (pins : List Pin) (wkl bkl : Int × Int) :
    ∀ m ∈ (apmFields b wtm ep pins wkl bkl).1, MoveOK b wtm ep m := by
  unfold apmFields
  refine foldl_preserve
    (fun (acc : List Move × List Pin × (Int × Int) × (Int × Int)) =>
      ∀ m ∈ acc.1, MoveOK b wtm ep m) _ _ _
    (by intro m hm; simp at hm) ?_
  intro acc r hrm hacc
  refine foldl_preserve
    (fun (acc : List Move × List Pin × (Int × Int) × (Int × Int)) =>
      ∀ m ∈ acc.1, MoveOK b wtm ep m) _ _ _ hacc ?_
  intro acc2 c hcm hacc2
  have hr8 : r < 8 := by simpa using hrm
  have hc8 : c < 8 := by simpa using hcm
  exact apmStep_moveOK b wtm ep acc2 (r : Int) (c : Int)
    ⟨by omega, by omega⟩ ⟨by omega, by omega⟩ hacc2

theorem removeFirstEq_subset :
    ∀ (l : List Move) (x m : Move), m ∈ removeFirstEq l x → m ∈ l := by
  intro l
  induction l with
  | nil => intro x m hm; simp [removeFirstEq] at hm
  | cons y l ih =>
    intro x m hm
    simp only [removeFirstEq] at hm
    split at hm
    · exact List.mem_cons_of_mem _ hm
    · rcases List.mem_cons.mp hm with h1 | h1
      · simp [h1]
      · exact List.mem_cons_of_mem _ (ih x m h1)

theorem checkFilterAux_subset (vs : List (Int × Int)) :
    ∀ (n : Nat) (l : List Move) (m : Move), m ∈ checkFilterAux vs l n → m ∈ l := by
  intro n
  induction n with
  | zero => intro l m hm; exact hm
  | succ n ih =>
    intro l m hm
    simp only [checkFilterAux] at hm
    split at hm
    · exact ih l m hm
    · split at hm
      · exact removeFirstEq_subset l _ m (ih _ m hm)
      · exact ih l m hm

theorem checkFilter_subset (l : List Move) (vs : List (Int × Int)) :
    ∀ m ∈ checkFilter l vs, m ∈ l :=
  fun m hm => checkFilterAux_subset vs l.length l m hm

theorem gvmFields_moveOK (b : Board) (wtm : Bool) (ep : Option (Int × Int))
    (wkl bkl : Int × Int) (cm sm : Bool)
    (hwk : 0 ≤ wkl.1 ∧ wkl.1 < 8 ∧ 0 ≤ wkl.2 ∧ wkl.2 < 8)
    (hbk : 0 ≤ bkl.1 ∧ bkl.1 < 8 ∧ 0 ≤ bkl.2 ∧ bkl.2 < 8) :
    ∀ m ∈ (gvmFields b wtm ep wkl bkl cm sm).moves, MoveOK b wtm ep m := by
  intro m hm
  simp only [gvmFields] at hm
  split at hm
  · split at hm
    · exact apmFields_moveOK b wtm ep _ wkl bkl m
        (checkFilter_subset _ _ m hm)
    · have hkb : 0 ≤ (if wtm then wkl else bkl).1 ∧ (if wtm then wkl else bkl).1 < 8 :=
        by cases wtm <;> simp <;> omega
      have hkc : 0 ≤ (if wtm then wkl else bkl).2 ∧ (if wtm then wkl else bkl).2 < 8 :=
        by cases wtm <;> simp <;> omega
      rcases kingFields_moveOK b wtm ep wkl bkl _ _ [] hkb hkc m hm with h1 | h1
      · simp at h1
      · exact h1
  · exact apmFields_moveOK b wtm ep _ wkl bkl m hm

theorem get_valid_moves_moveOK (g : GameState) (hk : cacheInBounds g) :
    ∀ m ∈ (get_valid_moves g).1,
      MoveOK g.board g.white_to_move g.en_passant_possible m := by
  intro m hm
  exact gvmFields_moveOK g.board g.white_to_move g.en_passant_possible
    g.white_king_location g.black_king_location g.checkmate g.stalemate
    ⟨hk.1.1, hk.1.2.1, hk.1.2.2.1, hk.1.2.2.2⟩
    ⟨hk.2.1, hk.2.2.1, hk.2.2.2.1, hk.2.2.2.2⟩ m hm

/-! #### Frame lemmas: what a legality query leaves untouched -/

theorem kingStep_cache_w (b : Board) (wtm : Bool) (row col : Int)
    (acc : List Move × (Int × Int) × (Int × Int)) (d : Int × Int) :
    ((kingStep b wtm 'w' row col acc d).2.1 = acc.2.1 ∨
     (kingStep b wtm 'w' row col acc d).2.1 = (row, col)) ∧
    (kingStep b wtm 'w' row col acc d).2.2 = acc.2.2 := by
  by_cases hbnd : 0 ≤ row + d.1 ∧ row + d.1 < 8 ∧ 0 ≤ col + d.2 ∧ col + d.2 < 8
  · by_cases hcp : (boardGet b (row + d.1) (col + d.2)).1 ≠ 'w'
    · simp [kingStep, hbnd, hcp]
    · simp [kingStep, hbnd, hcp]
  · simp [kingStep, hbnd]

theorem kingStep_cache_b (b : Board) (wtm : Bool) (row col : Int)
    (acc : List Move × (Int × Int) × (Int × Int)) (d : Int × Int) :
    (kingStep b wtm 'b' row col acc d).2.1 = acc.2.1 ∧
    ((kingStep b wtm 'b' row col acc d).2.2 = acc.2.2 ∨
     (kingStep b wtm 'b' row col acc d).2.2 = (row, col)) := by
  by_cases hbnd : 0 ≤ row + d.1 ∧ row + d.1 < 8 ∧ 0 ≤ col + d.2 ∧ col + d.2 < 8
  · by_cases hcp : (boardGet b (row + d.1) (col + d.2)).1 ≠ 'b'
    · simp [kingStep, hbnd, hcp]
    · simp [kingStep, hbnd, hcp]
  · simp [kingStep, hbnd]

theorem kingFields_cache (b : Board) (wtm : Bool) (wkl bkl : Int × Int)
    (row col : Int) (ms : List Move) :
    ((kingFields b wtm wkl bkl row col ms).2.1 = wkl ∨
      (wtm = true ∧ (kingFields b wtm wkl bkl row col ms).2.1 = (row, col))) ∧
    ((kingFields b wtm wkl bkl row col ms).2.2 = bkl ∨
      (wtm = false ∧ (kingFields b wtm wkl bkl row col ms).2.2 = (row, col))) := by
  unfold kingFields
  cases wtm
  · simp only [Bool.false_eq_true, if_false]
    have h := foldl_preserve
      (fun (acc : List Move × (Int × Int) × (Int × Int)) =>
        acc.2.1 = wkl ∧ (acc.2.2 = bkl ∨ acc.2.2 = (row, col)))
      (kingStep b false 'b' row col) kingOffsets (ms, wkl, bkl)
      ⟨rfl, Or.inl rfl⟩
      (by
        intro acc d hd hacc
        have hs := kingStep_cache_b b false row col acc d
        refine ⟨hs.1.trans hacc.1, ?_⟩
        rcases hs.2 with h1 | h1
        · rw [h1]; exact hacc.2
        · exact Or.inr h1)
    refine ⟨Or.inl h.1, ?_⟩
    rcases h.2 with h1 | h1
    · exact Or.inl h1
    · exact Or.inr ⟨by simp, h1⟩
  · simp only [if_true]
    have h := foldl_preserve
      (fun (acc : List Move × (Int × Int) × (Int × Int)) =>
        (acc.2.1 = wkl ∨ acc.2.1 = (row, col)) ∧ acc.2.2 = bkl)
      (kingStep b true 'w' row col) kingOffsets (ms, wkl, bkl)
      ⟨Or.inl rfl, rfl⟩
      (by
        intro acc d hd hacc
        have hs := kingStep_cache_w b true row col acc d
        refine ⟨?_, hs.2.trans hacc.2⟩
        rcases hs.1 with h1 | h1
        · rw [h1]; exact hacc.1
        · exact Or.inr h1)
    refine ⟨?_, Or.inl h.2⟩
    rcases h.1 with h1 | h1
    · exact Or.inl h1
    · exact Or.inr ⟨by simp, h1⟩

theorem apmStep_cache (b : Board) (wtm : Bool) (ep : Option (Int × Int))
    (acc : List Move × List Pin × (Int × Int) × (Int × Int)) (row col : Int)
    (wkl0 bkl0 : Int × Int)
    (hacc : acc.2.2.1 = wkl0 ∧ acc.2.2.2 = bkl0)
    (hking : ∀ r c : Int, boardGet b r c = ((if wtm then 'w' else 'b'), 'K') →
      (r, c) = (if wtm then wkl0 else bkl0)) :
    (apmStep b wtm ep acc row col).2.2.1 = wkl0 ∧
    (apmStep b wtm ep acc row col).2.2.2 = bkl0 := by
  simp only [apmStep]
  split
  · next hturn =>
    split
    · exact hacc
    · split
      · exact hacc
      · split
        · exact hacc
        · split
          · exact hacc
          · split
            · exact hacc
            · split
              · next hK =>
                have hcolor : (boardGet b row col).1 = (if wtm then 'w' else 'b') := by
                  rcases hturn with ⟨h1, h2⟩ | ⟨h1, h2⟩
                  · simp [h1, h2]
                  · simp [h1, h2]
                have hpk : boardGet b row col = ((if wtm then 'w' else 'b'), 'K') := by
                  rw [← hcolor, ← hK]
                have hrc := hking row col hpk
                have hkc := kingFields_cache b wtm acc.2.2.1 acc.2.2.2 row col acc.1
                cases wtm
                · simp only [Bool.false_eq_true, if_false] at hrc
                  rcases hkc.1 with h1 | ⟨h2, _⟩
                  · rcases hkc.2 with h3 | ⟨_, h4⟩
                    · exact ⟨h1.trans hacc.1, h3.trans hacc.2⟩
                    · exact ⟨h1.trans hacc.1, by rw [h4, hrc]⟩
                  · simp at h2
                · simp only [if_true] at hrc
                  rcases hkc.1 with h1 | ⟨_, h2⟩
                  · rcases hkc.2 with h3 | ⟨h4, _⟩
                    · exact ⟨h1.trans hacc.1, h3.trans hacc.2⟩
                    · simp at h4
                  · rcases hkc.2 with h3 | ⟨h4, _⟩
                    · exact ⟨by rw [h2, hrc], h3.trans hacc.2⟩
                    · simp at h4
              · exact hacc
  · exact hacc

theorem apmFields_cache (b : Board) (wtm : Bool) (ep : Option (Int × Int))
    (pins : List Pin) (wkl bkl : Int × Int)
    (hking : ∀ r c : Int, boardGet b r c = ((if wtm then 'w' else 'b'), 'K') →
      (r, c) = (if wtm then wkl else bkl)) :
    (apmFields b wtm ep pins wkl bkl).2.2.1 = wkl ∧
    (apmFields b wtm ep pins wkl bkl).2.2.2 = bkl := by
  unfold apmFields
  refine foldl_preserve
    (fun (acc : List Move × List Pin × (Int × Int) × (Int × Int)) =>
      acc.2.2.1 = wkl ∧ acc.2.2.2 = bkl) _ _ _ ⟨rfl, rfl⟩ ?_
  intro acc r hrm hacc
  refine foldl_preserve
    (fun (acc : List Move × List Pin × (Int × Int) × (Int × Int)) =>
      acc.2.2.1 = wkl ∧ acc.2.2.2 = bkl) _ _ _ hacc ?_
  intro acc2 c hcm hacc2
  exact apmStep_cache b wtm ep acc2 (r : Int) (c : Int) wkl bkl hacc2 hking

theorem gvmFields_frame (b : Board) (wtm : Bool) (ep : Option (Int × Int))
    (wkl bkl : Int × Int) (cm sm : Bool)
    (hking : ∀ r c : Int, boardGet b r c = ((if wtm then 'w' else 'b'), 'K') →
      (r, c) = (if wtm then wkl else bkl)) :
    (gvmFields b wtm ep wkl bkl cm sm).wkl = wkl ∧
    (gvmFields b wtm ep wkl bkl cm sm).bkl = bkl := by
  simp only [gvmFields]
  split
  · split
    · exact apmFields_cache b wtm ep _ wkl bkl hking
    · have hkc := kingFields_cache b wtm wkl bkl
        (if wtm then wkl else bkl).1 (if wtm then wkl else bkl).2 []
      cases wtm
      · rcases hkc.1 with h1 | ⟨h2, _⟩
        · rcases hkc.2 with h3 | ⟨_, h4⟩
          · exact ⟨h1, h3⟩
          · exact ⟨h1, by simpa using h4⟩
        · simp at h2
      · rcases hkc.1 with h1 | ⟨_, h2⟩
        · rcases hkc.2 with h3 | ⟨h4, _⟩
          · exact ⟨h1, h3⟩
          · simp at h4
        · rcases hkc.2 with h3 | ⟨h4, _⟩
          · exact ⟨by simpa using h2, h3⟩
          · simp at h4
  · exact apmFields_cache b wtm ep _ wkl bkl hking

theorem get_valid_moves_core (g : GameState) (hk : sideKingCacheOK g) :
    core (get_valid_moves g).2 = core g := by
  have hf := gvmFields_frame g.board g.white_to_move g.en_passant_possible
    g.white_king_location g.black_king_location g.checkmate g.stalemate hk
  simp [get_valid_moves, core, hf.1, hf.2]

theorem boardGet_oob (b : Board) (r c : Int)
    (h : ¬ (0 ≤ r ∧ r < 8 ∧ 0 ≤ c ∧ c < 8)) : boardGet b r c = emptySq := by
  unfold boardGet
  rw [if_neg h]

theorem kingInvB_sound (g : GameState) (h : kingInvB g = true) : kingInvProp g := by
  unfold kingInvB at h
  rw [decide_eq_true_eq] at h
  constructor <;> intro r c hrc
  · by_cases hb : 0 ≤ r ∧ r < 8 ∧ 0 ≤ c ∧ c < 8
    · have her : ((r.toNat : Nat) : Int) = r := Int.toNat_of_nonneg hb.1
      have hec : ((c.toNat : Nat) : Int) = c := Int.toNat_of_nonneg hb.2.2.1
      have h1 := (h r.toNat (by simp [List.mem_range]; omega) c.toNat
        (by simp [List.mem_range]; omega)).1
      rw [her, hec] at h1
      exact h1 hrc
    · rw [boardGet_oob g.board r c hb] at hrc
      simp [emptySq] at hrc
  · by_cases hb : 0 ≤ r ∧ r < 8 ∧ 0 ≤ c ∧ c < 8
    · have her : ((r.toNat : Nat) : Int) = r := Int.toNat_of_nonneg hb.1
      have hec : ((c.toNat : Nat) : Int) = c := Int.toNat_of_nonneg hb.2.2.1
      have h1 := (h r.toNat (by simp [List.mem_range]; omega) c.toNat
        (by simp [List.mem_range]; omega)).2
      rw [her, hec] at h1
      exact h1 hrc
    · rw [boardGet_oob g.board r c hb] at hrc
      simp [emptySq] at hrc

theorem kingInvProp_side (g : GameState) (h : kingInvProp g) : sideKingCacheOK g := by
  intro r c hrc
  by_cases hw : g.white_to_move = true
  · rw [if_pos hw] at hrc ⊢
    exact h.1 r c hrc
  · rw [if_neg hw] at hrc ⊢
    exact h.2 r c hrc

/-! #### The make/undo inverse computation -/

theorem board_restore_plain (B : Board) (sr sc er ec : Int) (pm pc x y : Square)
    (hshape : boardShape B) (hne : ¬ (sr = er ∧ sc = ec))
    (hpm : pm = boardGet B sr sc) (hpc : pc = boardGet B er ec) :
    boardSet (boardSet (boardSet (boardSet B sr sc x) er ec y) sr sc pm) er ec pc
      = B := by
  have hne' : ¬ (er = sr ∧ ec = sc) := fun h => hne ⟨h.1.symm, h.2.symm⟩
  have e1 : boardSet (boardSet B sr sc x) sr sc pm = B := by
    rw [boardSet_boardSet_self, hpm, boardSet_boardGet_self _ _ _ hshape]
  have e2 : boardSet (boardSet (boardSet B sr sc x) er ec y) sr sc pm =
      boardSet B er ec y := by
    rw [boardSet_comm _ er ec sr sc _ _ hne', e1]
  rw [e2, boardSet_boardSet_self, hpc, boardSet_boardGet_self _ _ _ hshape]

theorem board_restore_ep (B : Board) (sr sc er ec : Int) (pm pc : Square)
    (hshape : boardShape B) (hpm : pm = boardGet B sr sc)
    (hEmptyEnd : boardGet B er ec = emptySq)
    (hCap : boardGet B sr ec = pc)
    (hrne : sr ≠ er) (hcne : sc ≠ ec) :
    boardSet (boardSet (boardSet (boardSet (boardSet
      (boardSet B sr sc emptySq) er ec pm) sr ec emptySq) sr sc pm)
      er ec emptySq) sr ec pc = B := by
  have hse : ¬ (sr = er ∧ sc = ec) := fun h => hrne h.1
  have hes : ¬ (er = sr ∧ ec = sc) := fun h => hrne h.1.symm
  have hscap : ¬ (sr = sr ∧ ec = sc) := fun h => hcne h.2.symm
  have hcaps : ¬ (sr = sr ∧ sc = ec) := fun h => hcne h.2
  have hcape : ¬ (sr = er ∧ ec = ec) := fun h => hrne h.1
  have hecap : ¬ (er = sr ∧ ec = ec) := fun h => hrne h.1.symm
  -- the re-made start square collapses to the original board
  have e0 : boardSet (boardSet B sr sc emptySq) sr sc pm = B := by
    rw [boardSet_boardSet_self, hpm, boardSet_boardGet_self _ _ _ hshape]
  have e1 : boardSet (boardSet (boardSet
      (boardSet B sr sc emptySq) er ec pm) sr ec emptySq) sr sc pm =
      boardSet (boardSet B er ec pm) sr ec emptySq := by
    rw [boardSet_comm _ sr ec sr sc _ _ hscap,
      boardSet_comm _ er ec sr sc _ _ hes, e0]
  rw [e1]
  have e2 : boardSet (boardSet (boardSet B er ec pm) sr ec emptySq)
      er ec emptySq = boardSet B sr ec emptySq := by
    rw [boardSet_comm _ sr ec er ec _ _ hcape, boardSet_boardSet_self,
      ← hEmptyEnd, boardSet_boardGet_self _ _ _ hshape]
  rw [e2, boardSet_boardSet_self, ← hCap, boardSet_boardGet_self _ _ _ hshape]

theorem make_undo_core (g : GameState) (m : Move)
    (hwf : StateWF g)
    (hok : MoveOK g.board g.white_to_move g.en_passant_possible m) :
    core (undo_move (make_move g m)) = core g := by
  obtain ⟨hshape, hking, hepinv, hloginv, hcb⟩ := hwf
  have hlast : (make_move g m).move_log.getLast? = some m := List.getLast?_concat _
  unfold undo_move
  rw [hlast]
  simp only [make_move, core, Core.mk.injEq]
  refine ⟨?_, by simp, List.dropLast_concat, ?_, ?_, ?_, List.dropLast_concat,
    ?_, ?_, ?_, ?_, List.dropLast_concat⟩
  · -- the board is restored
    by_cases hep : m.is_en_passant_move = true
    · obtain ⟨hpmv, hpcv, hepv, herow, hecol, hpromo⟩ := hok.enp hep
      rw [if_pos hep, if_pos hep, if_neg (by rw [hpromo]; simp)]
      rw [boardSet_boardSet_self]
      rcases hepinv _ _ hepv with ⟨hecb2, hwh, hbl⟩
      by_cases hw : g.white_to_move = true
      · obtain ⟨her2, hemp2, hcap2⟩ := hwh hw
        rw [hw] at herow hpcv
        simp only [if_true] at herow hpcv
        have hsr : m.start_row = 3 := by omega
        refine board_restore_ep g.board m.start_row m.start_column m.end_row
          m.end_column m.piece_moved m.piece_captured hshape hok.pmoved ?_ ?_
          (by omega) (fun hc => (hecol hc.symm))
        · rw [her2]; exact hemp2
        · rw [hsr, hpcv]; exact hcap2
      · have hw2 : g.white_to_move = false := by simpa using hw
        obtain ⟨her2, hemp2, hcap2⟩ := hbl hw2
        rw [hw2] at herow hpcv
        simp only [Bool.false_eq_true, if_false] at herow hpcv
        have hsr : m.start_row = 4 := by omega
        refine board_restore_ep g.board m.start_row m.start_column m.end_row
          m.end_column m.piece_moved m.piece_captured hshape hok.pmoved ?_ ?_
          (by omega) (fun hc => (hecol hc.symm))
        · rw [her2]; exact hemp2
        · rw [hsr, hpcv]; exact hcap2
    · have hef : m.is_en_passant_move = false := by simpa using hep
      have hpc := hok.captured hef
      rw [if_neg hep, if_neg hep]
      by_cases hpr : m.is_pawn_promotion = true
      · rw [if_pos hpr, boardSet_boardSet_self]
        exact board_restore_plain g.board m.start_row m.start_column m.end_row
          m.end_column m.piece_moved m.piece_captured emptySq (m.piece_moved.1, 'R')
          hshape hok.nontrivial hok.pmoved hpc
      · rw [if_neg hpr]
        exact board_restore_plain g.board m.start_row m.start_column m.end_row
          m.end_column m.piece_moved m.piece_captured emptySq m.piece_moved
          hshape hok.nontrivial hok.pmoved hpc
  · -- the white king cache is restored
    by_cases hwk : m.piece_moved = ('w', 'K')
    · rw [if_pos hwk]
      exact hking.1 m.start_row m.start_column (by rw [← hok.pmoved]; exact hwk)
    · rw [if_neg hwk, if_neg hwk]
  · -- the black king cache is restored
    by_cases hbk : m.piece_moved = ('b', 'K')
    · rw [if_pos hbk]
      exact hking.2 m.start_row m.start_column (by rw [← hok.pmoved]; exact hbk)
    · rw [if_neg hbk, if_neg hbk]
  · -- the en-passant target is restored from the popped log
    rw [List.dropLast_concat, hloginv.1]
  · -- the four castle-rights flags are restored from the popped log
    rw [List.dropLast_concat, hloginv.2.1]
  · rw [List.dropLast_concat, hloginv.2.1]
  · rw [List.dropLast_concat, hloginv.2.1]
  · rw [List.dropLast_concat, hloginv.2.1]

theorem make_move_boardGet (g : GameState) (m : Move) (hshape : boardShape g.board)
    (hok : MoveOK g.board g.white_to_move g.en_passant_possible m) :
    ∀ r c : Int, boardGet (make_move g m).board r c =
      if r = m.end_row ∧ c = m.end_column then
        (if m.is_pawn_promotion = true then (m.piece_moved.1, 'R') else m.piece_moved)
      else if m.is_en_passant_move = true ∧ r = m.start_row ∧ c = m.end_column then
        emptySq
      else if r = m.start_row ∧ c = m.start_column then emptySq
      else boardGet g.board r c := by
  intro r c
  have hs1 : boardShape (boardSet g.board m.start_row m.start_column emptySq) :=
    boardShape_boardSet _ _ _ _ hshape
  have hs2 : boardShape (boardSet (boardSet g.board m.start_row m.start_column emptySq)
      m.end_row m.end_column m.piece_moved) := boardShape_boardSet _ _ _ _ hs1
  simp only [make_move]
  by_cases hep : m.is_en_passant_move = true
  · obtain ⟨hpm, hpc, hepv, herow, hecol, hpromo⟩ := hok.enp hep
    have hsrer : m.start_row ≠ m.end_row := by
      rcases Bool.eq_false_or_eq_true g.white_to_move with hw | hw <;>
        rw [hw] at herow <;> simp at herow <;> omega
    have hprF : ¬ m.is_pawn_promotion = true := by
      rw [hpromo]; exact Bool.false_ne_true
    rw [if_pos hep, if_neg hprF, if_neg hprF]
    by_cases h1 : r = m.end_row ∧ c = m.end_column
    · rw [if_pos h1]
      have hne1 : ¬ (m.start_row = r ∧ m.end_column = c) := fun hc =>
        hsrer (hc.1.trans h1.1)
      rw [boardGet_boardSet_ne _ _ _ _ _ _ hne1, h1.1, h1.2,
        boardGet_boardSet_self _ _ _ _ hs1 hok.erb hok.ecb]
    · rw [if_neg h1]
      by_cases h2 : r = m.start_row ∧ c = m.end_column
      · rw [if_pos ⟨hep, h2.1, h2.2⟩, h2.1, h2.2,
          boardGet_boardSet_self _ _ _ _ hs2 hok.srb hok.ecb]
      · rw [if_neg (fun hc => h2 ⟨hc.2.1, hc.2.2⟩)]
        have hne2 : ¬ (m.start_row = r ∧ m.end_column = c) := fun hc =>
          h2 ⟨hc.1.symm, hc.2.symm⟩
        have hne3 : ¬ (m.end_row = r ∧ m.end_column = c) := fun hc =>
          h1 ⟨hc.1.symm, hc.2.symm⟩
        rw [boardGet_boardSet_ne _ _ _ _ _ _ hne2,
          boardGet_boardSet_ne _ _ _ _ _ _ hne3]
        by_cases h3 : r = m.start_row ∧ c = m.start_column
        · rw [if_pos h3, h3.1, h3.2,
            boardGet_boardSet_self _ _ _ _ hshape hok.srb hok.scb]
        · rw [if_neg h3,
            boardGet_boardSet_ne _ _ _ _ _ _ (fun hc => h3 ⟨hc.1.symm, hc.2.symm⟩)]
  · rw [if_neg hep]
    rw [if_neg (show ¬ (m.is_en_passant_move = true ∧ r = m.start_row ∧
      c = m.end_column) from fun hc => hep hc.1)]
    by_cases hpr : m.is_pawn_promotion = true
    · rw [if_pos hpr, if_pos hpr, boardSet_boardSet_self]
      by_cases h1 : r = m.end_row ∧ c = m.end_column
      · rw [if_pos h1, h1.1, h1.2,
          boardGet_boardSet_self _ _ _ _ hs1 hok.erb hok.ecb]
      · rw [if_neg h1,
          boardGet_boardSet_ne _ _ _ _ _ _ (fun hc => h1 ⟨hc.1.symm, hc.2.symm⟩)]
        by_cases h3 : r = m.start_row ∧ c = m.start_column
        · rw [if_pos h3, h3.1, h3.2,
            boardGet_boardSet_self _ _ _ _ hshape hok.srb hok.scb]
        · rw [if_neg h3,
            boardGet_boardSet_ne _ _ _ _ _ _ (fun hc => h3 ⟨hc.1.symm, hc.2.symm⟩)]
    · rw [if_neg hpr, if_neg hpr]
      by_cases h1 : r = m.end_row ∧ c = m.end_column
      · rw [if_pos h1, h1.1, h1.2,
          boardGet_boardSet_self _ _ _ _ hs1 hok.erb hok.ecb]
      · rw [if_neg h1,
          boardGet_boardSet_ne _ _ _ _ _ _ (fun hc => h1 ⟨hc.1.symm, hc.2.symm⟩)]
        by_cases h3 : r = m.start_row ∧ c = m.start_column
        · rw [if_pos h3, h3.1, h3.2,
            boardGet_boardSet_self _ _ _ _ hshape hok.srb hok.scb]
        · rw [if_neg h3,
            boardGet_boardSet_ne _ _ _ _ _ _ (fun hc => h3 ⟨hc.1.symm, hc.2.symm⟩)]

theorem make_move_wkl (g : GameState) (m : Move) :
    (make_move g m).white_king_location =
      if m.piece_moved = ('w', 'K') then (m.end_row, m.end_column)
      else g.white_king_location := rfl

theorem make_move_bkl (g : GameState) (m : Move) :
    (make_move g m).black_king_location =
      if m.piece_moved = ('b', 'K') then (m.end_row, m.end_column)
      else g.black_king_location := rfl

theorem make_move_ep (g : GameState) (m : Move) :
    (make_move g m).en_passant_possible =
      if m.piece_moved.2 = 'P' ∧ (m.start_row - m.end_row).natAbs = 2 then
        some ((m.start_row + m.end_row) / 2, m.start_column)
      else none := rfl

theorem make_move_eplog (g : GameState) (m : Move) :
    (make_move g m).en_passant_possible_log =
      g.en_passant_possible_log ++ [(make_move g m).en_passant_possible] := rfl

theorem make_move_crlog (g : GameState) (m : Move) :
    (make_move g m).castle_rights_log =
      g.castle_rights_log ++
        [⟨g.white_castle_king_side, g.black_castle_king_side,
          g.white_castle_queen_side, g.black_castle_queen_side⟩] := rfl

theorem make_move_mlog (g : GameState) (m : Move) :
    (make_move g m).move_log = g.move_log ++ [m] := rfl

theorem make_move_wtm (g : GameState) (m : Move) :
    (make_move g m).white_to_move = !g.white_to_move := by
  rcases Bool.eq_false_or_eq_true g.white_to_move with h | h <;> simp [make_move, h]

/-- `make_move` preserves the state invariant on any move carrying the facts
every generated move carries. -/
theorem make_move_WF (g : GameState) (m : Move) (hwf : StateWF g)
    (hok : MoveOK g.board g.white_to_move g.en_passant_possible m) :
    StateWF (make_move g m) := by
  obtain ⟨hshape, hking, hepinv, hloginv, hcb⟩ := hwf
  refine ⟨?_, ⟨?_, ?_⟩, ?_, ⟨?_, ?_, ?_, ?_⟩, ?_, ?_⟩
  · -- board shape
    have base : boardShape (boardSet (boardSet g.board m.start_row m.start_column
        emptySq) m.end_row m.end_column m.piece_moved) :=
      boardShape_boardSet _ _ _ _ (boardShape_boardSet _ _ _ _ hshape)
    simp only [make_move]
    split
    · refine boardShape_boardSet _ _ _ _ ?_
      split
      · exact boardShape_boardSet _ _ _ _ base
      · exact base
    · split
      · exact boardShape_boardSet _ _ _ _ base
      · exact base
  · -- every white king is at the updated white cache
    intro r c hrc
    rw [make_move_boardGet g m hshape hok r c] at hrc
    rw [make_move_wkl]
    split at hrc
    · next h1 =>
      split at hrc
      · exact absurd (congrArg Prod.snd hrc) (show ('R' : Char) ≠ 'K' by decide)
      · rw [if_pos hrc]
        exact Prod.ext h1.1 h1.2
    · next h1n =>
      split at hrc
      · exact absurd hrc (by decide)
      · next h2n =>
        split at hrc
        · exact absurd hrc (by decide)
        · next h3n =>
          by_cases hpm : m.piece_moved = ('w', 'K')
          · exfalso
            have hsq : (m.start_row, m.start_column) = g.white_king_location :=
              hking.1 _ _ (hok.pmoved.symm.trans hpm)
            have hrcq : (r, c) = (m.start_row, m.start_column) :=
              (hking.1 _ _ hrc).trans hsq.symm
            exact h3n ⟨congrArg Prod.fst hrcq, congrArg Prod.snd hrcq⟩
          · rw [if_neg hpm]
            exact hking.1 _ _ hrc
  · -- every black king is at the updated black cache
    intro r c hrc
    rw [make_move_boardGet g m hshape hok r c] at hrc
    rw [make_move_bkl]
    split at hrc
    · next h1 =>
      split at hrc
      · exact absurd (congrArg Prod.snd hrc) (show ('R' : Char) ≠ 'K' by decide)
      · rw [if_pos hrc]
        exact Prod.ext h1.1 h1.2
    · next h1n =>
      split at hrc
      · exact absurd hrc (by decide)
      · next h2n =>
        split at hrc
        · exact absurd hrc (by decide)
        · next h3n =>
          by_cases hpm : m.piece_moved = ('b', 'K')
          · exfalso
            have hsq : (m.start_row, m.start_column) = g.black_king_location :=
              hking.2 _ _ (hok.pmoved.symm.trans hpm)
            have hrcq : (r, c) = (m.start_row, m.start_column) :=
              (hking.2 _ _ hrc).trans hsq.symm
            exact h3n ⟨congrArg Prod.fst hrcq, congrArg Prod.snd hrcq⟩
          · rw [if_neg hpm]
            exact hking.2 _ _ hrc
  · -- the fresh en-passant target satisfies the target invariant
    intro r c hrc
    rw [make_move_ep] at hrc
    split at hrc
    · next hcond =>
      have hinj := Option.some.inj hrc
      have hrv : (m.start_row + m.end_row) / 2 = r := congrArg Prod.fst hinj
      have hc2 : m.start_column = c := congrArg Prod.snd hinj
      obtain ⟨hc1, hsc, hepf, hprf, hsrv, herv, hmid, hend⟩ :=
        hok.dstep hcond.1 hcond.2
      have hbg := make_move_boardGet g m hshape hok
      rw [make_move_wtm]
      cases hw : g.white_to_move
      · -- a black double step: the fresh target is behind the pawn on row 2
        simp only [Bool.not_false]
        simp [hw] at hc1 hsrv herv hmid
        refine ⟨by rw [← hc2]; exact hok.scb, ?_, ?_⟩
        · intro _
          have her3 : m.end_row = 3 := by omega
          refine ⟨by omega, ?_, ?_⟩
          · rw [hbg 2 c]
            rw [if_neg (show ¬ ((2 : Int) = m.end_row ∧ c = m.end_column) from
                  fun h => by rw [her3] at h; exact absurd h.1 (by decide)),
                if_neg (show ¬ (m.is_en_passant_move = true ∧ (2 : Int) = m.start_row ∧
                    c = m.end_column) from
                  fun h => Bool.false_ne_true (hepf.symm.trans h.1)),
                if_neg (show ¬ ((2 : Int) = m.start_row ∧ c = m.start_column) from
                  fun h => by rw [hsrv] at h; exact absurd h.1 (by decide))]
            convert hmid using 2 <;> omega
          · rw [hbg 3 c]
            rw [if_pos ⟨her3.symm, hc2.symm.trans hsc⟩,
                if_neg (show ¬ m.is_pawn_promotion = true from
                  fun h => Bool.false_ne_true (hprf.symm.trans h))]
            exact Prod.ext hc1 hcond.1
        · intro hfalse
          exact absurd hfalse (by decide)
      · -- a white double step: the fresh target is behind the pawn on row 5
        simp only [Bool.not_true]
        simp [hw] at hc1 hsrv herv hmid
        refine ⟨by rw [← hc2]; exact hok.scb, ?_, ?_⟩
        · intro hfalse
          exact absurd hfalse (by decide)
        · intro _
          have her4 : m.end_row = 4 := by omega
          refine ⟨by omega, ?_, ?_⟩
          · rw [hbg 5 c]
            rw [if_neg (show ¬ ((5 : Int) = m.end_row ∧ c = m.end_column) from
                  fun h => by rw [her4] at h; exact absurd h.1 (by decide)),
                if_neg (show ¬ (m.is_en_passant_move = true ∧ (5 : Int) = m.start_row ∧
                    c = m.end_column) from
                  fun h => Bool.false_ne_true (hepf.symm.trans h.1)),
                if_neg (show ¬ ((5 : Int) = m.start_row ∧ c = m.start_column) from
                  fun h => by rw [hsrv] at h; exact absurd h.1 (by decide))]
            convert hmid using 2 <;> omega
          · rw [hbg 4 c]
            rw [if_pos ⟨her4.symm, hc2.symm.trans hsc⟩,
                if_neg (show ¬ m.is_pawn_promotion = true from
                  fun h => Bool.false_ne_true (hprf.symm.trans h))]
            exact Prod.ext hc1 hcond.1
    · exact Option.noConfusion hrc
  · rw [make_move_eplog]
    exact List.getLast?_concat _
  · rw [make_move_crlog]
    exact List.getLast?_concat _
  · rw [make_move_eplog, make_move_mlog]
    simp [hloginv.2.2.1]
  · rw [make_move_crlog, make_move_mlog]
    simp [hloginv.2.2.2]
  · rw [make_move_wkl]
    split
    · exact ⟨hok.erb.1, hok.erb.2, hok.ecb.1, hok.ecb.2⟩
    · exact hcb.1
  · rw [make_move_bkl]
    split
    · exact ⟨hok.erb.1, hok.erb.2, hok.ecb.1, hok.ecb.2⟩
    · exact hcb.2

/-- The state invariant only concerns the persistent fields. -/
theorem stateWF_of_core_eq (s t : GameState) (h : core s = core t)
    (hwf : StateWF t) : StateWF s := by
  have hb : s.board = t.board := congrArg Core.board h
  have hw : s.white_to_move = t.white_to_move := congrArg Core.white_to_move h
  have hml : s.move_log = t.move_log := congrArg Core.move_log h
  have hwk : s.white_king_location = t.white_king_location :=
    congrArg Core.white_king_location h
  have hbk : s.black_king_location = t.black_king_location :=
    congrArg Core.black_king_location h
  have hep : s.en_passant_possible = t.en_passant_possible :=
    congrArg Core.en_passant_possible h
  have hepl : s.en_passant_possible_log = t.en_passant_possible_log :=
    congrArg Core.en_passant_possible_log h
  have hcrl : s.castle_rights_log = t.castle_rights_log :=
    congrArg Core.castle_rights_log h
  have hf1 : s.white_castle_king_side = t.white_castle_king_side :=
    congrArg Core.white_castle_king_side h
  have hf2 : s.white_castle_queen_side = t.white_castle_queen_side :=
    congrArg Core.white_castle_queen_side h
  have hf3 : s.black_castle_king_side = t.black_castle_king_side :=
    congrArg Core.black_castle_king_side h
  have hf4 : s.black_castle_queen_side = t.black_castle_queen_side :=
    congrArg Core.black_castle_queen_side h
  unfold StateWF boardShape kingInvProp epInvProp logInv cacheInBounds
  rw [hb, hw, hml, hwk, hbk, hep, hepl, hcrl, hf1, hf2, hf3, hf4]
  exact hwf

theorem initialGameState_WF : StateWF initialGameState := by
  refine ⟨by unfold boardShape; decide, kingInvB_sound _ (by decide), ?_,
    by unfold logInv; decide, by unfold cacheInBounds; decide⟩
  intro r c h
  exact Option.noConfusion h

theorem makeReachable_WF (s : GameState) (h : MakeReachable s) : StateWF s := by
  induction h with
  | init => exact initialGameState_WF
  | @gen s hMR ih =>
    exact stateWF_of_core_eq _ _
      (get_valid_moves_core _ (kingInvProp_side _ ih.2.1)) ih
  | @move s m hMR hm ih =>
    have hcore := get_valid_moves_core s (kingInvProp_side _ ih.2.1)
    have hwf2 : StateWF (get_valid_moves s).2 := stateWF_of_core_eq _ _ hcore ih
    have hok := get_valid_moves_moveOK s ih.2.2.2.2 m hm
    have hb : (get_valid_moves s).2.board = s.board := congrArg Core.board hcore
    have hw : (get_valid_moves s).2.white_to_move = s.white_to_move :=
      congrArg Core.white_to_move hcore
    have he : (get_valid_moves s).2.en_passant_possible = s.en_passant_possible :=
      congrArg Core.en_passant_possible hcore
    refine make_move_WF _ m hwf2 ?_
    rw [hb, hw, he]
    exact hok

theorem gvmFields_moves_flags (b : Board) (wtm : Bool) (ep : Option (Int × Int))
    (wkl bkl : Int × Int) (cm sm cm' sm' : Bool) :
    (gvmFields b wtm ep wkl bkl cm sm).moves =
      (gvmFields b wtm ep wkl bkl cm' sm').moves := rfl

/-- The legal-move list only depends on the persistent fields. -/
theorem gvm_moves_congr (a b : GameState) (h : core a = core b) :
    (get_valid_moves a).1 = (get_valid_moves b).1 := by
  have hb : a.board = b.board := congrArg Core.board h
  have hw : a.white_to_move = b.white_to_move := congrArg Core.white_to_move h
  have he : a.en_passant_possible = b.en_passant_possible :=
    congrArg Core.en_passant_possible h
  have hwk : a.white_king_location = b.white_king_location :=
    congrArg Core.white_king_location h
  have hbk : a.black_king_location = b.black_king_location :=
    congrArg Core.black_king_location h
  show (gvmFields a.board a.white_to_move a.en_passant_possible
      a.white_king_location a.black_king_location a.checkmate a.stalemate).moves =
    (gvmFields b.board b.white_to_move b.en_passant_possible
      b.white_king_location b.black_king_location b.checkmate b.stalemate).moves
  rw [hb, hw, he, hwk, hbk]
  exact gvmFields_moves_flags b.board b.white_to_move b.en_passant_possible
    b.white_king_location b.black_king_location a.checkmate a.stalemate
    b.checkmate b.stalemate

theorem make_move_core_congr (a b : GameState) (m : Move) (h : core a = core b) :
    core (make_move a m) = core (make_move b m) := by
  have hb : a.board = b.board := congrArg Core.board h
  have hw : a.white_to_move = b.white_to_move := congrArg Core.white_to_move h
  have hml : a.move_log = b.move_log := congrArg Core.move_log h
  have hwk : a.white_king_location = b.white_king_location :=
    congrArg Core.white_king_location h
  have hbk : a.black_king_location = b.black_king_location :=
    congrArg Core.black_king_location h
  have hepl : a.en_passant_possible_log = b.en_passant_possible_log :=
    congrArg Core.en_passant_possible_log h
  have hcrl : a.castle_rights_log = b.castle_rights_log :=
    congrArg Core.castle_rights_log h
  have hf1 : a.white_castle_king_side = b.white_castle_king_side :=
    congrArg Core.white_castle_king_side h
  have hf2 : a.white_castle_queen_side = b.white_castle_queen_side :=
    congrArg Core.white_castle_queen_side h
  have hf3 : a.black_castle_king_side = b.black_castle_king_side :=
    congrArg Core.black_castle_king_side h
  have hf4 : a.black_castle_queen_side = b.black_castle_queen_side :=
    congrArg Core.black_castle_queen_side h
  simp only [make_move, core, Core.mk.injEq]
  rw [hb, hw, hml, hwk, hbk, hepl, hcrl, hf1, hf2, hf3, hf4]
  simp

theorem undo_core_congr (a b : GameState) (h : core a = core b) :
    core (undo_move a) = core (undo_move b) := by
  have hb : a.board = b.board := congrArg Core.board h
  have hw : a.white_to_move = b.white_to_move := congrArg Core.white_to_move h
  have hml : a.move_log = b.move_log := congrArg Core.move_log h
  have hwk : a.white_king_location = b.white_king_location :=
    congrArg Core.white_king_location h
  have hbk : a.black_king_location = b.black_king_location :=
    congrArg Core.black_king_location h
  have hepl : a.en_passant_possible_log = b.en_passant_possible_log :=
    congrArg Core.en_passant_possible_log h
  have hcrl : a.castle_rights_log = b.castle_rights_log :=
    congrArg Core.castle_rights_log h
  unfold undo_move
  rw [hml, hb, hw, hwk, hbk, hepl, hcrl]
  cases b.move_log.getLast? with
  | none => exact h
  | some mv => rfl

theorem makeReachable_undo_twin (s : GameState) (h : MakeReachable s) :
    ∃ t, MakeReachable t ∧ core (undo_move s) = core t := by
  induction h with
  | init => exact ⟨initialGameState, MakeReachable.init, rfl⟩
  | @gen s hMR ih =>
    obtain ⟨u, hu, hcu⟩ := ih
    have hwf := makeReachable_WF _ hMR
    have hcore := get_valid_moves_core _ (kingInvProp_side _ hwf.2.1)
    exact ⟨u, hu, (undo_core_congr _ _ hcore).trans hcu⟩
  | @move s m hMR hm ih =>
    have hwf := makeReachable_WF _ hMR
    have hcore := get_valid_moves_core s (kingInvProp_side _ hwf.2.1)
    have hwf2 : StateWF (get_valid_moves s).2 := stateWF_of_core_eq _ _ hcore hwf
    have hok := get_valid_moves_moveOK s hwf.2.2.2.2 m hm
    have hb : (get_valid_moves s).2.board = s.board := congrArg Core.board hcore
    have hw : (get_valid_moves s).2.white_to_move = s.white_to_move :=
      congrArg Core.white_to_move hcore
    have he : (get_valid_moves s).2.en_passant_possible = s.en_passant_possible :=
      congrArg Core.en_passant_possible hcore
    refine ⟨(get_valid_moves s).2, MakeReachable.gen hMR, make_undo_core _ m hwf2 ?_⟩
    rw [hb, hw, he]
    exact hok

/-- Every state reachable through the engine's interface agrees on all
persistent fields with a state reachable without `undo_move`. -/
theorem reachable_twin (s : GameState) (h : Reachable s) :
    ∃ t, MakeReachable t ∧ core s = core t := by
  induction h with
  | init => exact ⟨initialGameState, MakeReachable.init, rfl⟩
  | @gen s hR ih =>
    obtain ⟨t, ht, hc⟩ := ih
    have hwt := makeReachable_WF t ht
    have hws : StateWF s := stateWF_of_core_eq s t hc hwt
    have h1 := get_valid_moves_core s (kingInvProp_side _ hws.2.1)
    have h2 := get_valid_moves_core t (kingInvProp_side _ hwt.2.1)
    exact ⟨(get_valid_moves t).2, MakeReachable.gen ht,
      h1.trans (hc.trans h2.symm)⟩
  | @move s m hR hm ih =>
    obtain ⟨t, ht, hc⟩ := ih
    have hwt := makeReachable_WF t ht
    have hws : StateWF s := stateWF_of_core_eq s t hc hwt
    have h1 := get_valid_moves_core s (kingInvProp_side _ hws.2.1)
    have h2 := get_valid_moves_core t (kingInvProp_side _ hwt.2.1)
    have hm' : m ∈ (get_valid_moves t).1 := by
      rw [← gvm_moves_congr s t hc]
      exact hm
    exact ⟨make_move (get_valid_moves t).2 m, MakeReachable.move ht hm',
      make_move_core_congr _ _ m (h1.trans (hc.trans h2.symm))⟩
  | @undo s hR ih =>
    obtain ⟨t, ht, hc⟩ := ih
    obtain ⟨u, hu, hcu⟩ := makeReachable_undo_twin t ht
    exact ⟨u, hu, (undo_core_congr s t hc).trans hcu⟩

/-- Every reachable state satisfies the state invariant. -/
theorem reachable_WF (s : GameState) (h : Reachable s) : StateWF s := by
  obtain ⟨t, ht, hc⟩ := reachable_twin s h
  exact stateWF_of_core_eq s t hc (makeReachable_WF t ht)

theorem cfpRayAux_some_not_chk (b : Board) (ally opponent : Char)
    (sr sc dr dc : Int) (j : Nat) :
    ∀ (fuel : Nat) (i : Int) (p : Pin),
      isChk (cfpRayAux b ally opponent sr sc dr dc j fuel i (some p)) = false := by
  intro fuel
  induction fuel with
  | zero => intro i p; rfl
  | succ n ih =>
    intro i p
    simp only [cfpRayAux]
    split
    · split
      · rfl
      · split
        · split
          · rfl
          · rfl
        · exact ih (i + 1) p
    · rfl

/-- On a ray carrying no king of the scanning side (apart from its origin),
the check detection of `check_for_pins_and_checks` agrees with the blocker
scan of `square_under_attack`. -/
theorem cfp_sua_ray_equiv (b : Board) (ally opponent : Char) (sr sc dr dc : Int)
    (j : Nat) (hd : ¬ (dr = 0 ∧ dc = 0))
    (hkc : ∀ r c : Int, boardGet b r c = (ally, 'K') → (r, c) = (sr, sc)) :
    ∀ (fuel : Nat) (i : Int), 1 ≤ i →
      isChk (cfpRayAux b ally opponent sr sc dr dc j fuel i none) =
        suaRayAux b ally opponent sr sc dr dc j fuel i := by
  intro fuel
  induction fuel with
  | zero => intro i _; rfl
  | succ n ih =>
    intro i hi
    simp only [cfpRayAux, suaRayAux]
    by_cases hb : 0 ≤ sr + dr * i ∧ sr + dr * i < 8 ∧ 0 ≤ sc + dc * i ∧
        sc + dc * i < 8
    · rw [if_pos hb, if_pos hb]
      by_cases ha : (boardGet b (sr + dr * i) (sc + dc * i)).1 = ally
      · by_cases hk : (boardGet b (sr + dr * i) (sc + dc * i)).2 = 'K'
        · exfalso
          have hpe : boardGet b (sr + dr * i) (sc + dc * i) = (ally, 'K') := by
            rw [← ha, ← hk]
          have hsq := hkc _ _ hpe
          have h1 : sr + dr * i = sr := congrArg Prod.fst hsq
          have h2 : sc + dc * i = sc := congrArg Prod.snd hsq
          have hine : i ≠ 0 := by omega
          rcases mul_eq_zero.mp (show dr * i = 0 by omega) with hz1 | hz1
          · rcases mul_eq_zero.mp (show dc * i = 0 by omega) with hz2 | hz2
            · exact hd ⟨hz1, hz2⟩
            · exact hine hz2
          · exact hine hz1
        · rw [if_pos ⟨ha, hk⟩, if_pos ha]
          exact cfpRayAux_some_not_chk b ally opponent sr sc dr dc j n (i + 1) _
      · rw [if_neg (fun hc => ha hc.1), if_neg ha]
        by_cases ho : (boardGet b (sr + dr * i) (sc + dc * i)).1 = opponent
        · rw [if_pos ho, if_pos ho]
          by_cases hat : attackCond opponent j (boardGet b (sr + dr * i)
              (sc + dc * i)).2 i
          · rw [if_pos hat, if_pos hat]
            rfl
          · rw [if_neg hat, if_neg hat]
            rfl
        · rw [if_neg ho, if_neg ho]
          exact ih (i + 1) (by omega)
    · rw [if_neg hb, if_neg hb]
      rfl

theorem listAny_congr {α : Type} (l : List α) (f g : α → Bool)
    (h : ∀ x ∈ l, f x = g x) : l.any f = l.any g := by
  induction l with
  | nil => rfl
  | cons x xs ih =>
    simp only [List.any_cons]
    rw [h x (List.mem_cons_self x xs),
      ih fun y hy => h y (List.mem_cons_of_mem x hy)]

theorem foldl_cfpRayStep_fst (b : Board) (ally opponent : Char) (sr sc : Int) :
    ∀ (l : List (Nat × Int × Int)) (acc : Bool × List Pin × List Pin),
      (l.foldl (cfpRayStep b ally opponent sr sc) acc).1 =
        (acc.1 || l.any fun jd =>
          isChk (cfpRayAux b ally opponent sr sc jd.2.1 jd.2.2 jd.1 7 1 none)) := by
  intro l
  induction l with
  | nil => intro acc; simp
  | cons jd rest ih =>
    intro acc
    rw [List.foldl_cons, List.any_cons, ih]
    have hstep : (cfpRayStep b ally opponent sr sc acc jd).1 =
        (acc.1 || isChk (cfpRayAux b ally opponent sr sc jd.2.1 jd.2.2 jd.1 7 1
          none)) := by
      unfold cfpRayStep
      cases hres : cfpRayAux b ally opponent sr sc jd.2.1 jd.2.2 jd.1 7 1 none with
      | nores => simp [isChk]
      | pin p => simp [isChk]
      | chk p => simp [isChk]
    rw [hstep, Bool.or_assoc]

theorem foldl_cfpKnightStep_fst (b : Board) (opponent : Char) (sr sc : Int) :
    ∀ (l : List (Int × Int)) (acc : Bool × List Pin),
      (l.foldl (cfpKnightStep b opponent sr sc) acc).1 =
        (acc.1 || l.any fun m =>
          if 0 ≤ sr + m.1 ∧ sr + m.1 < 8 ∧ 0 ≤ sc + m.2 ∧ sc + m.2 < 8 then
            decide ((boardGet b (sr + m.1) (sc + m.2)).1 = opponent ∧
              (boardGet b (sr + m.1) (sc + m.2)).2 = 'N')
          else false) := by
  intro l
  induction l with
  | nil => intro acc; simp
  | cons d rest ih =>
    intro acc
    rw [List.foldl_cons, List.any_cons, ih]
    have hstep : (cfpKnightStep b opponent sr sc acc d).1 =
        (acc.1 || if 0 ≤ sr + d.1 ∧ sr + d.1 < 8 ∧ 0 ≤ sc + d.2 ∧ sc + d.2 < 8 then
          decide ((boardGet b (sr + d.1) (sc + d.2)).1 = opponent ∧
            (boardGet b (sr + d.1) (sc + d.2)).2 = 'N') else false) := by
      simp only [cfpKnightStep]
      split
      · split
        · next hhit => simp [hhit]
        · next hhit => simp [hhit]
      · simp
    rw [hstep, Bool.or_assoc]

/-- The `in_check` flag of `check_for_pins_and_checks` agrees with
`square_under_attack` applied to the side-to-move's king square whenever the
side-to-move king cache covers every king of that color. -/
theorem cfpFields_fst_eq_suaFields (b : Board) (wtm : Bool) (wkl bkl : Int × Int)
    (hkc : ∀ r c : Int, boardGet b r c = ((if wtm then 'w' else 'b'), 'K') →
      (r, c) = (if wtm then wkl else bkl)) :
    (cfpFields b wtm wkl bkl).1 =
      suaFields b wtm (if wtm then wkl else bkl).1 (if wtm then wkl else bkl).2
        (if wtm then 'w' else 'b') := by
  have hrays : ∀ jd ∈ directionsE,
      isChk (cfpRayAux b (if wtm then 'w' else 'b') (if wtm then 'b' else 'w')
        (if wtm then wkl else bkl).1 (if wtm then wkl else bkl).2
        jd.2.1 jd.2.2 jd.1 7 1 none) =
      suaRayAux b (if wtm then 'w' else 'b') (if wtm then 'b' else 'w')
        (if wtm then wkl else bkl).1 (if wtm then wkl else bkl).2
        jd.2.1 jd.2.2 jd.1 7 1 := by
    intro jd hjd
    fin_cases hjd <;>
      exact cfp_sua_ray_equiv b _ _ _ _ _ _ _ (by decide) hkc 7 1 (by decide)
  simp only [cfpFields, suaFields]
  rw [foldl_cfpKnightStep_fst]
  dsimp only
  rw [foldl_cfpRayStep_fst]
  dsimp only
  rw [Bool.false_or]
  congr 1
  exact listAny_congr directionsE _ _ hrays

set_option maxRecDepth 100000 in
/-- Claim C10 (amended): for every `GameState` whose side-to-move king cache
covers every king of that colour on the board — true of every reachable
state — `get_valid_moves` leaves the board contents, the move log, the
en-passant target, both history logs, and both cached king locations
unchanged; only the transient fields may change.  (The unamended claim fails
on states with a stale cache, see the counterexample.) -/
theorem c10_get_valid_moves_frame (g : GameState) (hk : sideKingCacheOK g) :
    (get_valid_moves g).2.board = g.board ∧
    (get_valid_moves g).2.move_log = g.move_log ∧
    (get_valid_moves g).2.en_passant_possible = g.en_passant_possible ∧
    (get_valid_moves g).2.en_passant_possible_log = g.en_passant_possible_log ∧
    (get_valid_moves g).2.castle_rights_log = g.castle_rights_log ∧
    (get_valid_moves g).2.white_king_location = g.white_king_location ∧
    (get_valid_moves g).2.black_king_location = g.black_king_location := by
  have h := get_valid_moves_core g hk
  exact ⟨congrArg Core.board h, congrArg Core.move_log h,
    congrArg Core.en_passant_possible h, congrArg Core.en_passant_possible_log h,
    congrArg Core.castle_rights_log h, congrArg Core.white_king_location h,
    congrArg Core.black_king_location h⟩

set_option maxRecDepth 100000 in
/-- Witness for C10: the initial position satisfies the cache hypothesis and
the frame conclusion. -/
theorem c10_get_valid_moves_frame_witness :
    sideKingCacheOK initialGameState ∧
    ((get_valid_moves initialGameState).2.board = initialGameState.board ∧
     (get_valid_moves initialGameState).2.move_log = initialGameState.move_log ∧
     (get_valid_moves initialGameState).2.en_passant_possible =
       initialGameState.en_passant_possible ∧
     (get_valid_moves initialGameState).2.en_passant_possible_log =
       initialGameState.en_passant_possible_log ∧
     (get_valid_moves initialGameState).2.castle_rights_log =
       initialGameState.castle_rights_log ∧
     (get_valid_moves initialGameState).2.white_king_location =
       initialGameState.white_king_location ∧
     (get_valid_moves initialGameState).2.black_king_location =
       initialGameState.black_king_location) :=
  have hk : sideKingCacheOK initialGameState :=
    kingInvProp_side initialGameState
      (kingInvB_sound initialGameState (by decide))
  ⟨hk, c10_get_valid_moves_frame initialGameState hk⟩

set_option maxRecDepth 100000 in
/-- Claim C1: refuted on the code.  In the reachable position after
1. e4 a6 2. Qh5 (each move taken from the engine's own legal-move list), the
f7 pawn is pinned along the e8-h5 diagonal, yet `get_valid_moves` still
contains its two-square advance f7-f5 — the source's two-step branch sits
outside the pin guard — and executing that move with `make_move` leaves
black's own king attacked by the queen on h5. -/
theorem c1_valid_move_leaves_mover_in_check :
    (mvE4 ∈ (get_valid_moves initialGameState).1 ∧
     mvA6 ∈ (get_valid_moves stAfterE4).1 ∧
     mvQh5 ∈ (get_valid_moves stAfterA6).1 ∧
     mvF7F5 ∈ (get_valid_moves stAfterQh5).1) ∧
    sideInCheck (make_move (get_valid_moves stAfterQh5).2 mvF7F5) false = true := by
  decide

set_option maxRecDepth 100000 in
/-- Claim C3: from the standard starting position `get_valid_moves` returns
exactly 20 moves, and summing the legal replies to each of them gives exactly
400 depth-2 nodes. -/
theorem c3_perft_counts :
    (get_valid_moves initialGameState).1.length = 20 ∧
    ((get_valid_moves initialGameState).1.map fun m =>
      (get_valid_moves (make_move (get_valid_moves initialGameState).2 m)).1.length).sum
      = 400 := by
  decide

set_option maxRecDepth 100000 in
/-- Claim C4: refuted on the code.  In `pinnedPawnState` the analyzer
reports the f7 pawn pinned with direction `(1, 1)`, yet `get_pawn_moves`
still generates its two-square advance to `(3, 5)`, whose displacement
`(2, 0)` does not lie on the diagonal pin axis (an on-axis destination would
change row and column equally). -/
theorem c4_pinned_pawn_off_axis_double_step :
    (check_for_pins_and_checks pinnedPawnState).2.1 = [(1, 5, 1, 1)] ∧
    mkMove (1, 5) (3, 5) pinnedPawnState.board false false false ∈
      (get_pawn_moves
        {pinnedPawnState with pins := (check_for_pins_and_checks pinnedPawnState).2.1}
        1 5 []).1 ∧
    (mkMove (1, 5) (3, 5) pinnedPawnState.board false false false).end_row - 1 ≠
      (mkMove (1, 5) (3, 5) pinnedPawnState.board false false false).end_column - 5 := by
  decide

set_option maxRecDepth 100000 in
/-- Claim C5: refuted on the code.  In `pinnedQueenState` the analyzer
reports the e2 queen pinned with direction `(-1, 0)` (the e-file), yet
`get_queen_moves` generates the horizontal move e2-d2 — `get_bishop_moves`
runs first and consumes the pin entry, so the rook half slides unrestricted —
the move even survives `get_valid_moves`, and executing it leaves white's own
king attacked by the rook on e8. -/
theorem c5_pinned_queen_off_axis_rook_move :
    (check_for_pins_and_checks pinnedQueenState).2.1 = [(6, 4, -1, 0)] ∧
    mvQueenOffAxis ∈
      (get_queen_moves
        {pinnedQueenState with pins := (check_for_pins_and_checks pinnedQueenState).2.1}
        6 4 []).1 ∧
    mvQueenOffAxis.end_column ≠ 4 ∧
    mvQueenOffAxis ∈ (get_valid_moves pinnedQueenState).1 ∧
    sideInCheck (make_move (get_valid_moves pinnedQueenState).2 mvQueenOffAxis) true
      = true := by
  decide

set_option maxRecDepth 100000 in
/-- Claim C7: refuted on the code.  In `epExposedState` the white king, the
en-passant pawn pair, and the attacking black rook share rank 5 with no other
piece between king and rook, so the claim requires the capture e5xd6 to be
suppressed; but a knight standing beyond the rook sets the scan's
`blocking_piece` flag (the outward loop never breaks), the capture is
generated by `get_valid_moves`, and executing it leaves white's own king
attacked along the rank. -/
theorem c7_en_passant_generated_despite_exposed_king :
    boardGet epExposedState.board 3 3 = ('b', 'P') ∧
    boardGet epExposedState.board 3 4 = ('w', 'P') ∧
    boardGet epExposedState.board 3 5 = ('b', 'R') ∧
    epExposedState.en_passant_possible = some (2, 3) ∧
    mvEpExposed ∈ (get_valid_moves epExposedState).1 ∧
    sideInCheck (make_move (get_valid_moves epExposedState).2 mvEpExposed) true
      = true := by
  decide

set_option maxRecDepth 100000 in
/-- Claim C10, counterexample: on a `GameState` whose white king cache is
stale, `get_valid_moves` does not restore the cache — the probe loop resets
it to the argument square of `get_king_moves`, not to the original cache —
so the claim's frame condition fails for this state. -/
theorem c10_counterexample_stale_cache :
    (get_valid_moves staleCacheState).2.white_king_location ≠
      staleCacheState.white_king_location := by
  decide

/-- Claim C2: for every reachable `GameState` `s` and every move `m` of its
legal-move list, `undo_move (make_move s m)` restores the board contents, the
side to move, the en-passant target, the four castle-rights flags and both
cached king locations of `s`, including for en-passant and pawn-promotion
moves. -/
theorem c2_make_undo_round_trip (s : GameState) (m : Move)
    (hs : Reachable s) (hm : m ∈ (get_valid_moves s).1) :
    (undo_move (make_move s m)).board = s.board ∧
    (undo_move (make_move s m)).white_to_move = s.white_to_move ∧
    (undo_move (make_move s m)).en_passant_possible = s.en_passant_possible ∧
    (undo_move (make_move s m)).white_castle_king_side = s.white_castle_king_side ∧
    (undo_move (make_move s m)).white_castle_queen_side = s.white_castle_queen_side ∧
    (undo_move (make_move s m)).black_castle_king_side = s.black_castle_king_side ∧
    (undo_move (make_move s m)).black_castle_queen_side = s.black_castle_queen_side ∧
    (undo_move (make_move s m)).white_king_location = s.white_king_location ∧
    (undo_move (make_move s m)).black_king_location = s.black_king_location := by
  have hwf := reachable_WF s hs
  have hok := get_valid_moves_moveOK s hwf.2.2.2.2 m hm
  have h := make_undo_core s m hwf hok
  exact ⟨congrArg Core.board h, congrArg Core.white_to_move h,
    congrArg Core.en_passant_possible h, congrArg Core.white_castle_king_side h,
    congrArg Core.white_castle_queen_side h, congrArg Core.black_castle_king_side h,
    congrArg Core.black_castle_queen_side h, congrArg Core.white_king_location h,
    congrArg Core.black_king_location h⟩

set_option maxRecDepth 100000 in
/-- Witness for C2: the round trip through 1. e4 from the initial position. -/
theorem c2_make_undo_round_trip_witness :
    (undo_move (make_move initialGameState mvE4)).board = initialGameState.board ∧
    (undo_move (make_move initialGameState mvE4)).white_to_move =
      initialGameState.white_to_move ∧
    (undo_move (make_move initialGameState mvE4)).en_passant_possible =
      initialGameState.en_passant_possible ∧
    (undo_move (make_move initialGameState mvE4)).white_castle_king_side =
      initialGameState.white_castle_king_side ∧
    (undo_move (make_move initialGameState mvE4)).white_castle_queen_side =
      initialGameState.white_castle_queen_side ∧
    (undo_move (make_move initialGameState mvE4)).black_castle_king_side =
      initialGameState.black_castle_king_side ∧
    (undo_move (make_move initialGameState mvE4)).black_castle_queen_side =
      initialGameState.black_castle_queen_side ∧
    (undo_move (make_move initialGameState mvE4)).white_king_location =
      initialGameState.white_king_location ∧
    (undo_move (make_move initialGameState mvE4)).black_king_location =
      initialGameState.black_king_location :=
  c2_make_undo_round_trip initialGameState mvE4 Reachable.init (by decide)

/-- Claim C6: for any position whose live en-passant target sits on a
pawn-jump row (true of every reachable state), a pawn move reaching the back
rank is generated only when the mover's side has fewer than two rooks on the
board, and then it carries the promotion flag; with two or more rooks no move
to the back rank is generated at all; when promotion is allowed, pin-free and
the destination empty, the promoting advance is generated; and `make_move`
places a rook of the mover's color on the destination of every promotion
move. -/
theorem c6_promotion_rook_gate (b : Board) (wtm : Bool) (ep : Option (Int × Int))
    (pins : List Pin) (wkl bkl : Int × Int) (row col : Int)
    (hepTame : ∀ r c : Int, ep = some (r, c) → r = 2 ∨ r = 5) :
    (∀ m ∈ (pawnFields b wtm ep pins wkl bkl row col []).1,
        m.end_row = (if wtm then 0 else 7) →
          m.is_pawn_promotion = true ∧
          (if wtm then countPiece b ('w', 'R') else countPiece b ('b', 'R')) < 2) ∧
    (2 ≤ (if wtm then countPiece b ('w', 'R') else countPiece b ('b', 'R')) →
      ∀ m ∈ (pawnFields b wtm ep pins wkl bkl row col []).1,
        m.end_row ≠ (if wtm then 0 else 7)) ∧
    ((if wtm then countPiece b ('w', 'R') else countPiece b ('b', 'R')) < 2 →
      findPin pins row col = none →
      row + (if wtm then -1 else 1) = (if wtm then 0 else 7) →
      boardGet b (row + (if wtm then -1 else 1)) col = emptySq →
      mkMove (row, col) (row + (if wtm then -1 else 1), col) b false true false ∈
        (pawnFields b wtm ep pins wkl bkl row col []).1) ∧
    (∀ (g : GameState) (m : Move), boardShape g.board →
      MoveOK g.board g.white_to_move g.en_passant_possible m →
      m.is_pawn_promotion = true →
      boardGet (make_move g m).board m.end_row m.end_column =
        (m.piece_moved.1, 'R')) := by
  have key : ∀ m ∈ (pawnFields b wtm ep pins wkl bkl row col []).1,
      m.end_row = (if wtm then 0 else 7) →
        m.is_pawn_promotion = true ∧
        (if wtm then countPiece b ('w', 'R') else countPiece b ('b', 'R')) < 2 := by
    intro m hm hbr
    simp only [pawnFields, List.append_assoc, List.nil_append] at hm
    rcases List.mem_append.mp hm with h1 | h1
    · obtain ⟨hbnd, hemp, hcase⟩ := pawnForwardMoves_mem _ _ _ _ _ _ _ _ _ m h1
      rcases hcase with ⟨rfl, hb2, hpa⟩ | ⟨rfl, hb2⟩ | ⟨rfl, hsr, hemp2⟩
      · exact ⟨rfl, of_decide_eq_true hpa⟩
      · exfalso
        have hbr2 : row + (if wtm = true then (-1 : Int) else 1) =
            (if wtm = true then (0 : Int) else 7) := hbr
        exact hb2 hbr2
      · exfalso
        have hbr2 : row + 2 * (if wtm = true then (-1 : Int) else 1) =
            (if wtm = true then (0 : Int) else 7) := hbr
        have hsr2 : row = (if wtm = true then (6 : Int) else 1) := hsr
        rcases Bool.eq_false_or_eq_true wtm with hw | hw <;>
          rw [hw] at hbr2 hsr2 <;> simp at hbr2 hsr2 <;> omega
    · rcases List.mem_append.mp h1 with h2 | h2
      · obtain ⟨hbnd, hcase⟩ := pawnCaptureLeft_mem _ _ _ _ _ _ _ _ _ _ _ _ m h2
        rcases hcase with ⟨rfl, hb2, hpa⟩ | ⟨rfl, hb2⟩ | ⟨rfl, hepv⟩
        · exact ⟨rfl, of_decide_eq_true hpa⟩
        · exfalso
          have hbr2 : row + (if wtm = true then (-1 : Int) else 1) =
              (if wtm = true then (0 : Int) else 7) := hbr
          exact hb2 hbr2
        · exfalso
          have hrow := hepTame _ _ hepv
          have hbr2 : row + (if wtm = true then (-1 : Int) else 1) =
              (if wtm = true then (0 : Int) else 7) := hbr
          rcases Bool.eq_false_or_eq_true wtm with hw | hw <;>
            rw [hw] at hrow hbr2 <;> simp at hrow hbr2 <;>
            rcases hrow with h | h <;> omega
      · obtain ⟨hbnd, hcase⟩ := pawnCaptureRight_mem _ _ _ _ _ _ _ _ _ _ _ _ m h2
        rcases hcase with ⟨rfl, hb2, hpa⟩ | ⟨rfl, hb2⟩ | ⟨rfl, hepv⟩
        · exact ⟨rfl, of_decide_eq_true hpa⟩
        · exfalso
          have hbr2 : row + (if wtm = true then (-1 : Int) else 1) =
              (if wtm = true then (0 : Int) else 7) := hbr
          exact hb2 hbr2
        · exfalso
          have hrow := hepTame _ _ hepv
          have hbr2 : row + (if wtm = true then (-1 : Int) else 1) =
              (if wtm = true then (0 : Int) else 7) := hbr
          rcases Bool.eq_false_or_eq_true wtm with hw | hw <;>
            rw [hw] at hrow hbr2 <;> simp at hrow hbr2 <;>
            rcases hrow with h | h <;> omega
  refine ⟨key, ?_, ?_, ?_⟩
  · intro hge m hm hbr
    have := (key m hm hbr).2
    omega
  · intro hlt hpin hbrr hempv
    simp only [pawnFields, List.append_assoc, List.nil_append]
    refine List.mem_append.mpr (Or.inl ?_)
    simp only [pawnForwardMoves]
    have hbnd : 0 ≤ row + (if wtm = true then (-1 : Int) else 1) ∧
        row + (if wtm = true then (-1 : Int) else 1) < 8 := by
      rcases Bool.eq_false_or_eq_true wtm with hw | hw <;>
        rw [hw] at hbrr ⊢ <;> simp at hbrr ⊢ <;> omega
    rw [if_pos hbnd, if_pos hempv]
    refine List.mem_append.mpr (Or.inl ?_)
    have hppn : ¬ ((findPin pins row col).isSome = true) := by
      rw [hpin]
      simp
    rw [if_pos (Or.inl hppn), if_pos ⟨hbrr, decide_eq_true hlt⟩]
    exact List.mem_singleton.mpr rfl
  · intro g m hshape2 hok2 hpr
    rw [make_move_boardGet g m hshape2 hok2 m.end_row m.end_column,
      if_pos ⟨rfl, rfl⟩, if_pos hpr]

set_option maxRecDepth 100000 in
/-- Witness for C6: in `promoReadyState` (white pawn on d7, no white rooks)
the promoting advance d7-d8 is generated. -/
theorem c6_promotion_rook_gate_witness :
    mkMove ((1 : Int), (3 : Int)) (1 + (if true then (-1 : Int) else 1), 3)
      promoReadyState.board false true false ∈
      (pawnFields promoReadyState.board true none [] (7, 4) (0, 0) 1 3 []).1 :=
  (c6_promotion_rook_gate promoReadyState.board true none [] (7, 4) (0, 0) 1 3
    (fun r c h => Option.noConfusion h)).2.2.1
    (by decide) (by decide) (by decide) (by decide)

/-- Claim C8: in every reachable `GameState`, the `in_check` flag computed by
`check_for_pins_and_checks` is true exactly when `square_under_attack`, asked
about the side-to-move's king square on behalf of the side to move, reports an
attack by the opposing side. -/
theorem c8_in_check_iff_attacked (g : GameState) (hg : Reachable g) :
    ((check_for_pins_and_checks g).1 = true ↔
      square_under_attack g
        (if g.white_to_move then g.white_king_location
         else g.black_king_location).1
        (if g.white_to_move then g.white_king_location
         else g.black_king_location).2
        (if g.white_to_move then 'w' else 'b') = true) := by
  have hwf := reachable_WF g hg
  have heq := cfpFields_fst_eq_suaFields g.board g.white_to_move
    g.white_king_location g.black_king_location (kingInvProp_side g hwf.2.1)
  unfold check_for_pins_and_checks square_under_attack
  rw [heq]

/-- Witness for C8 at the initial position. -/
theorem c8_in_check_iff_attacked_witness :
    ((check_for_pins_and_checks initialGameState).1 = true ↔
      square_under_attack initialGameState
        (if initialGameState.white_to_move then initialGameState.white_king_location
         else initialGameState.black_king_location).1
        (if initialGameState.white_to_move then initialGameState.white_king_location
         else initialGameState.black_king_location).2
        (if initialGameState.white_to_move then 'w' else 'b') = true) :=
  c8_in_check_iff_attacked initialGameState Reachable.init

/-- Claim C9: after any sequence of `make_move` and `undo_move` calls from the
initial state, both snapshot logs hold exactly one more entry than the move
log. -/
theorem c9_log_lengths (s : GameState) (h : MoveUndoReachable s) :
    s.en_passant_possible_log.length = s.move_log.length + 1 ∧
    s.castle_rights_log.length = s.move_log.length + 1 := by
  induction h with
  | init => exact ⟨rfl, rfl⟩
  | @mk s m hs ih =>
    rw [make_move_eplog, make_move_crlog, make_move_mlog]
    simp [ih.1, ih.2]
  | @undo s hs ih =>
    cases hml : s.move_log.getLast? with
    | none =>
      have hu : undo_move s = s := by unfold undo_move; rw [hml]
      rw [hu]
      exact ih
    | some mv =>
      have h1 : (undo_move s).move_log = s.move_log.dropLast := by
        unfold undo_move; rw [hml]
      have h2 : (undo_move s).en_passant_possible_log =
          s.en_passant_possible_log.dropLast := by
        unfold undo_move; rw [hml]
      have h3 : (undo_move s).castle_rights_log = s.castle_rights_log.dropLast := by
        unfold undo_move; rw [hml]
      have hne : s.move_log ≠ [] := by
        intro hc
        rw [hc] at hml
        exact Option.noConfusion hml
      have hpos : 0 < s.move_log.length := List.length_pos.mpr hne
      rw [h1, h2, h3, List.length_dropLast, List.length_dropLast,
        List.length_dropLast]
      omega

/-- Witness for C9: the lockstep lengths after one move from the initial
state. -/
theorem c9_log_lengths_witness :
    (make_move initialGameState mvE4).en_passant_possible_log.length =
      (make_move initialGameState mvE4).move_log.length + 1 ∧
    (make_move initialGameState mvE4).castle_rights_log.length =
      (make_move initialGameState mvE4).move_log.length + 1 :=
  c9_log_lengths _ (MoveUndoReachable.mk mvE4 MoveUndoReachable.init)

end ChessVariant
